import Mathlib

/-!
Shallow embedding of the `kg-symbol` string-interning library.

The Rust source keeps a process-wide registry (`SYMBOLS`) of interned
string entries.  Each entry is one allocation holding a reference count
and the immutable UTF-8 payload; a `Symbol` is a pointer into such an
allocation.  We model allocations by natural-number addresses handed out
by a monotone counter, the registry by a list of entries (the `HashSet`
keyed by payload content), and single-threaded executions by explicit
state passing.  A `Symbol` value carries its address together with the
payload it reads through that address (the payload is immutable after
creation, so carrying it in the handle is faithful).
-/

set_option maxHeartbeats 1000000

namespace KgSymbol

/-- One interned allocation: header (`ref_count`) plus payload (`content`),
identified by its address. Mirrors `Header`/`SymbolPtr` in `lib.rs`. -/
structure Entry where
  addr : Nat
  content : String
  refCount : Nat
deriving DecidableEq, Repr

/-- A `Symbol` handle: a pointer-sized value identifying one entry.
`content` is the payload read through the pointer. -/
structure Symbol where
  addr : Nat
  content : String
deriving DecidableEq, Repr

/-- The global registry `SYMBOLS`: a set of entries keyed by content,
plus the allocator's next fresh address. -/
structure Registry where
  entries : List Entry
  nextAddr : Nat
deriving DecidableEq, Repr

namespace Registry

/-- `symbols.get(value)`: content-keyed lookup in the registry. -/
def find? (r : Registry) (s : String) : Option Entry :=
  r.entries.find? (fun e => e.content == s)

/-- Locate the entry sitting at a given address (dereferencing a pointer). -/
def findAddr? (r : Registry) (a : Nat) : Option Entry :=
  r.entries.find? (fun e => e.addr == a)

/-- Apply `δ` to the reference count of the entry at address `a`. -/
def adjust (δ : Nat → Nat) (a : Nat) (e : Entry) : Entry :=
  if e.addr == a then { e with refCount := δ e.refCount } else e

/-- `ref_count.fetch_add(1)` on the entry at address `a`. -/
def bumpAt (r : Registry) (a : Nat) : Registry :=
  ⟨r.entries.map (Registry.adjust (· + 1) a), r.nextAddr⟩

/-- `ref_count.fetch_sub(1)` on the entry at address `a`. -/
def decAt (r : Registry) (a : Nat) : Registry :=
  ⟨r.entries.map (Registry.adjust (· - 1) a), r.nextAddr⟩

/-- `symbols.replace(p)`: insert `e`, displacing any entry of equal content. -/
def replace (r : Registry) (e : Entry) : Registry :=
  ⟨e :: r.entries.filter (fun x => x.content != e.content), r.nextAddr⟩

/-- `symbols.remove(value)`: remove the entry of the given content. -/
def removeContent (r : Registry) (s : String) : Registry :=
  ⟨r.entries.filter (fun e => e.content != s), r.nextAddr⟩

end Registry

/-- `SymbolPtr::alloc(value, persistent)`: allocate a fresh combined
header+payload block; `ref_count` starts at 2 when `persistent`, else 1. -/
def SymbolPtr.alloc (r : Registry) (value : String) (persistent : Bool) : Entry × Registry :=
  (⟨r.nextAddr, value, if persistent then 2 else 1⟩, ⟨r.entries, r.nextAddr + 1⟩)

/-- Lazy initialization of `SYMBOLS`: a set holding one persistent entry
for the empty string (`SymbolPtr::alloc("", true)`). -/
def Registry.init : Registry :=
  let p := SymbolPtr.alloc ⟨[], 0⟩ "" true
  ⟨[p.1], p.2.nextAddr⟩

/-- `Symbol::new`: look up by content; on a hit whose previous count was
positive, increment and share; otherwise allocate a fresh entry and
`replace` it into the registry.  (The `fetch_add` happens before the
zero test, exactly as in the source.) -/
def Symbol.new (r : Registry) (value : String) : Symbol × Registry :=
  match r.find? value with
  | some e =>
    if 0 < e.refCount then
      (⟨e.addr, e.content⟩, r.bumpAt e.addr)
    else
      let r1 := r.bumpAt e.addr
      let p := SymbolPtr.alloc r1 value false
      (⟨p.1.addr, p.1.content⟩, p.2.replace p.1)
  | none =>
    let p := SymbolPtr.alloc r value false
    (⟨p.1.addr, p.1.content⟩, p.2.replace p.1)

/-- `Symbol::get`: look up by content; on a hit increment the count, but
hand out a handle only if the previous count was positive.  Never creates. -/
def Symbol.get (r : Registry) (value : String) : Option Symbol × Registry :=
  match r.find? value with
  | some e =>
    let r1 := r.bumpAt e.addr
    if 0 < e.refCount then (some ⟨e.addr, e.content⟩, r1) else (none, r1)
  | none => (none, r)

/-- `Clone for Symbol`: increment the entry's count, copy the address. -/
def Symbol.clone (r : Registry) (s : Symbol) : Symbol × Registry :=
  (s, r.bumpAt s.addr)

/-- `Symbol::destroy`: under the lock, re-locate by content and remove the
entry only if it is still the same allocation being dropped. -/
def Symbol.destroy (r : Registry) (s : Symbol) : Registry :=
  match r.find? s.content with
  | some e => if e.addr == s.addr then r.removeContent s.content else r
  | none => r

/-- `Drop for Symbol`: `fetch_sub(1)`; when the previous value was 1 the
dropping thread finalizes destruction. -/
def Symbol.drop (r : Registry) (s : Symbol) : Registry :=
  match r.findAddr? s.addr with
  | some e =>
    if e.refCount == 1 then Symbol.destroy (r.decAt s.addr) s
    else r.decAt s.addr
  | none => r

/-- Rust `str::cmp`: the total lexicographic order on string content. -/
def strCmp (a b : String) : Ordering :=
  if a = b then .eq else if a < b then .lt else .gt

/-- `PartialEq for Symbol`: pointer (address) comparison. -/
def Symbol.ptrEq (a b : Symbol) : Bool := a.addr == b.addr

/-- `Ord for Symbol`: short-circuit to `eq` on pointer equality, else
byte-wise content comparison. -/
def Symbol.cmp (a b : Symbol) : Ordering :=
  if a.ptrEq b then .eq else strCmp a.content b.content

/-- `Hash for Symbol`: hash exactly the data the payload string hashes,
for an arbitrary hasher `h` on the written string data. -/
def Symbol.hashVal (h : String → Nat) (s : Symbol) : Nat := h s.content

/-- `Borrow<str> for Symbol`: expose the payload. -/
def Symbol.borrowStr (s : Symbol) : String := s.content

/-- `serde::Serialize for Symbol`: emit the payload as a plain string. -/
def Symbol.serialize (s : Symbol) : String := s.content

/-- `serde::Deserialize for Symbol`: intern the decoded string. -/
def Symbol.deserialize (r : Registry) (enc : String) : Symbol × Registry :=
  Symbol.new r enc

/-- `Default for Symbol`: `Symbol::new("")`. -/
def Symbol.defaultSym (r : Registry) : Symbol × Registry := Symbol.new r ""

/-- Every `From` conversion (`String`, `&str`, `Cow<str>`, …) routes
through `Symbol::new`. -/
def Symbol.fromStr (r : Registry) (s : String) : Symbol × Registry := Symbol.new r s

/-! ## Single-threaded executions over the global registry

An execution is a sequence of handle operations applied to the lazily
initialized registry.  `St` records the registry together with the
multiset of currently live handles (the ghost needed to speak about
"`k` live handles"). -/

/-- A caller-visible operation on the interning pool. -/
inductive Op where
  | newOp (s : String)
  | getOp (s : String)
  | cloneOp (i : Nat)
  | dropOp (i : Nat)
  | defaultOp
deriving Repr

/-- Execution state: the registry plus the live handles (most recent first). -/
structure St where
  reg : Registry
  live : List Symbol
deriving Repr

/-- The process-start state: the initialized registry, no live handles. -/
def St.init : St := ⟨Registry.init, []⟩

/-- One operation of a single-threaded execution. -/
def St.step (st : St) : Op → St
  | .newOp s => ⟨(Symbol.new st.reg s).2, (Symbol.new st.reg s).1 :: st.live⟩
  | .defaultOp => ⟨(Symbol.defaultSym st.reg).2, (Symbol.defaultSym st.reg).1 :: st.live⟩
  | .getOp s =>
    match (Symbol.get st.reg s).1 with
    | some h => ⟨(Symbol.get st.reg s).2, h :: st.live⟩
    | none => ⟨(Symbol.get st.reg s).2, st.live⟩
  | .cloneOp i =>
    match st.live[i]? with
    | some h => ⟨(Symbol.clone st.reg h).2, (Symbol.clone st.reg h).1 :: st.live⟩
    | none => st
  | .dropOp i =>
    match st.live[i]? with
    | some h => ⟨Symbol.drop st.reg h, st.live.eraseIdx i⟩
    | none => st

/-- Run a whole operation sequence. -/
def St.apply (st : St) (ops : List Op) : St := ops.foldl St.step st

/-- The empty-string bias: the pinned empty entry starts at 2. -/
def bias (c : String) : Nat := if c = "" then 2 else 0

/-- How many live handles reference address `a`. -/
def addrCount (L : List Symbol) (a : Nat) : Nat :=
  (L.filter (fun h => h.addr == a)).length

/-- The registry invariant of single-threaded executions, relative to the
multiset `L` of live handles:
* entries are content-addressed (distinct contents) and are distinct
  allocations (distinct addresses) below the allocation cursor;
* each entry's count is the number of live handles on it plus the
  empty-string bias, and is positive;
* every live handle points at a resident entry of its content;
* the pinned empty entry from process start is resident at address 0. -/
structure RegInv (r : Registry) (L : List Symbol) : Prop where
  distinctC : r.entries.Pairwise (fun e1 e2 => e1.content ≠ e2.content)
  distinctA : r.entries.Pairwise (fun e1 e2 => e1.addr ≠ e2.addr)
  fresh : ∀ e ∈ r.entries, e.addr < r.nextAddr
  counts : ∀ e ∈ r.entries, e.refCount = bias e.content + addrCount L e.addr
  pos : ∀ e ∈ r.entries, 0 < e.refCount
  liveIn : ∀ h ∈ L, ∃ e ∈ r.entries, e.addr = h.addr ∧ e.content = h.content
  emptyPin : ∃ e ∈ r.entries, e.addr = 0 ∧ e.content = ""

/-- Well-formedness of an execution state. -/
def WF (st : St) : Prop := RegInv st.reg st.live

/-! ### Elementary list/lookup lemmas -/

lemma eq_of_pairwise_key {α β : Type _} (f : α → β) {l : List α}
    (hp : l.Pairwise (fun a b => f a ≠ f b)) {a b : α}
    (ha : a ∈ l) (hb : b ∈ l) (hf : f a = f b) : a = b := by
  induction l with
  | nil => cases ha
  | cons x xs ih =>
    rcases List.pairwise_cons.mp hp with ⟨hx, hxs⟩
    rcases List.mem_cons.mp ha with rfl | ha' <;> rcases List.mem_cons.mp hb with rfl | hb'
    · rfl
    · exact absurd hf (hx _ hb')
    · exact absurd hf.symm (hx _ ha')
    · exact ih hxs ha' hb'

lemma find?_mem {r : Registry} {s : String} {e : Entry} (h : r.find? s = some e) :
    e ∈ r.entries ∧ e.content = s := by
  unfold Registry.find? at h
  refine ⟨List.mem_of_find?_eq_some h, ?_⟩
  simpa using List.find?_some h

lemma findAddr?_mem {r : Registry} {a : Nat} {e : Entry} (h : r.findAddr? a = some e) :
    e ∈ r.entries ∧ e.addr = a := by
  unfold Registry.findAddr? at h
  refine ⟨List.mem_of_find?_eq_some h, ?_⟩
  simpa using List.find?_some h

lemma find?_none_iff {r : Registry} {s : String} :
    r.find? s = none ↔ ∀ e ∈ r.entries, e.content ≠ s := by
  unfold Registry.find?
  simp [List.find?_eq_none]

lemma find?_eq_of_mem {r : Registry}
    (hC : r.entries.Pairwise (fun e1 e2 => e1.content ≠ e2.content))
    {e : Entry} (he : e ∈ r.entries) {s : String} (hc : e.content = s) :
    r.find? s = some e := by
  unfold Registry.find?
  cases hfind : r.entries.find? (fun x => x.content == s) with
  | none =>
    have := (List.find?_eq_none.mp hfind) e he
    simp [hc] at this
  | some e' =>
    have h1 := List.mem_of_find?_eq_some hfind
    have h2 : e'.content = s := by simpa using List.find?_some hfind
    have : e' = e := eq_of_pairwise_key Entry.content hC h1 he (h2.trans hc.symm)
    rw [this]

lemma findAddr?_eq_of_mem {r : Registry}
    (hA : r.entries.Pairwise (fun e1 e2 => e1.addr ≠ e2.addr))
    {e : Entry} (he : e ∈ r.entries) {a : Nat} (hc : e.addr = a) :
    r.findAddr? a = some e := by
  unfold Registry.findAddr?
  cases hfind : r.entries.find? (fun x => x.addr == a) with
  | none =>
    have := (List.find?_eq_none.mp hfind) e he
    simp [hc] at this
  | some e' =>
    have h1 := List.mem_of_find?_eq_some hfind
    have h2 : e'.addr = a := by simpa using List.find?_some hfind
    have : e' = e := eq_of_pairwise_key Entry.addr hA h1 he (h2.trans hc.symm)
    rw [this]

@[simp] lemma adjust_addr (δ : Nat → Nat) (a : Nat) (e : Entry) :
    (Registry.adjust δ a e).addr = e.addr := by
  unfold Registry.adjust; split <;> rfl

@[simp] lemma adjust_content (δ : Nat → Nat) (a : Nat) (e : Entry) :
    (Registry.adjust δ a e).content = e.content := by
  unfold Registry.adjust; split <;> rfl

lemma adjust_of_ne (δ : Nat → Nat) {a : Nat} {e : Entry} (h : e.addr ≠ a) :
    Registry.adjust δ a e = e := by
  unfold Registry.adjust
  simp [h]

lemma adjust_of_eq (δ : Nat → Nat) {a : Nat} {e : Entry} (h : e.addr = a) :
    Registry.adjust δ a e = { e with refCount := δ e.refCount } := by
  unfold Registry.adjust
  simp [h]

@[simp] lemma addrCount_nil (a : Nat) : addrCount [] a = 0 := rfl

lemma addrCount_cons (h : Symbol) (L : List Symbol) (a : Nat) :
    addrCount (h :: L) a = (if h.addr = a then 1 else 0) + addrCount L a := by
  unfold addrCount
  by_cases hh : h.addr = a <;> simp [List.filter_cons, hh, Nat.add_comm]

lemma addrCount_cons_self (h : Symbol) (L : List Symbol) :
    addrCount (h :: L) h.addr = addrCount L h.addr + 1 := by
  rw [addrCount_cons]; simp [Nat.add_comm]

lemma addrCount_cons_ne (h : Symbol) (L : List Symbol) {a : Nat} (ha : h.addr ≠ a) :
    addrCount (h :: L) a = addrCount L a := by
  rw [addrCount_cons]; simp [ha]

lemma addrCount_pos_of_mem {L : List Symbol} {h : Symbol} (hm : h ∈ L) :
    0 < addrCount L h.addr := by
  unfold addrCount
  have : h ∈ L.filter (fun x => x.addr == h.addr) := by
    simp [List.mem_filter, hm]
  exact List.length_pos.mpr (List.ne_nil_of_mem this)

lemma addrCount_eq_zero_iff {L : List Symbol} {a : Nat} :
    addrCount L a = 0 ↔ ∀ h ∈ L, h.addr ≠ a := by
  unfold addrCount
  simp [List.length_eq_zero, List.filter_eq_nil_iff]

lemma RegInv.perm {r : Registry} {L L' : List Symbol} (hinv : RegInv r L)
    (hp : L.Perm L') : RegInv r L' := by
  refine ⟨hinv.distinctC, hinv.distinctA, hinv.fresh, ?_, hinv.pos, ?_, hinv.emptyPin⟩
  · intro e he
    have := hinv.counts e he
    unfold addrCount at this ⊢
    rwa [← (hp.filter (fun h => h.addr == e.addr)).length_eq]
  · intro h hm
    exact hinv.liveIn h (hp.mem_iff.mpr hm)

/-! ### Shape lemmas for count adjustment -/

@[simp] lemma bumpAt_entries (r : Registry) (a : Nat) :
    (r.bumpAt a).entries = r.entries.map (Registry.adjust (· + 1) a) := rfl

@[simp] lemma bumpAt_nextAddr (r : Registry) (a : Nat) :
    (r.bumpAt a).nextAddr = r.nextAddr := rfl

@[simp] lemma decAt_entries (r : Registry) (a : Nat) :
    (r.decAt a).entries = r.entries.map (Registry.adjust (· - 1) a) := rfl

@[simp] lemma decAt_nextAddr (r : Registry) (a : Nat) :
    (r.decAt a).nextAddr = r.nextAddr := rfl

lemma pairwiseC_map_adjust {l : List Entry} (δ : Nat → Nat) (a : Nat)
    (h : l.Pairwise (fun e1 e2 => e1.content ≠ e2.content)) :
    (l.map (Registry.adjust δ a)).Pairwise (fun e1 e2 => e1.content ≠ e2.content) := by
  rw [List.pairwise_map]
  simpa using h

lemma pairwiseA_map_adjust {l : List Entry} (δ : Nat → Nat) (a : Nat)
    (h : l.Pairwise (fun e1 e2 => e1.addr ≠ e2.addr)) :
    (l.map (Registry.adjust δ a)).Pairwise (fun e1 e2 => e1.addr ≠ e2.addr) := by
  rw [List.pairwise_map]
  simpa using h

lemma mem_map_adjust {l : List Entry} {δ : Nat → Nat} {a : Nat} {x : Entry} :
    x ∈ l.map (Registry.adjust δ a) ↔ ∃ e0 ∈ l, x = Registry.adjust δ a e0 := by
  simp only [List.mem_map]
  exact ⟨fun ⟨e0, h1, h2⟩ => ⟨e0, h1, h2.symm⟩, fun ⟨e0, h1, h2⟩ => ⟨e0, h1, h2.symm⟩⟩

lemma adjust_dec_bump (a : Nat) (e : Entry) :
    Registry.adjust (· - 1) a (Registry.adjust (· + 1) a e) = e := by
  cases e with
  | mk ad c rc =>
    unfold Registry.adjust
    by_cases hx : ad = a <;> simp [hx]

lemma decAt_bumpAt (r : Registry) (a : Nat) : (r.bumpAt a).decAt a = r := by
  cases r with
  | mk es n =>
    simp only [Registry.decAt, Registry.bumpAt, List.map_map]
    congr 1
    have : ∀ e ∈ es, (Registry.adjust (· - 1) a ∘ Registry.adjust (· + 1) a) e = e := by
      intro e _
      exact adjust_dec_bump a e
    rw [List.map_congr_left this]
    exact List.map_id' es

/-- Bumping the count of a resident entry when a new handle on it becomes
live preserves the registry invariant. -/
lemma RegInv.bump {r : Registry} {L : List Symbol} (hinv : RegInv r L)
    {e : Entry} (he : e ∈ r.entries) (h : Symbol)
    (ha : h.addr = e.addr) (hc : h.content = e.content) :
    RegInv (r.bumpAt e.addr) (h :: L) := by
  obtain ⟨dC, dA, fr, cnt, pos, liv, pin⟩ := hinv
  refine ⟨pairwiseC_map_adjust _ _ dC, pairwiseA_map_adjust _ _ dA, ?_, ?_, ?_, ?_, ?_⟩
  · intro x hx
    obtain ⟨e0, he0, rfl⟩ := mem_map_adjust.mp hx
    simpa using fr e0 he0
  · intro x hx
    obtain ⟨e0, he0, rfl⟩ := mem_map_adjust.mp hx
    by_cases hae : e0.addr = e.addr
    · have : e0 = e := eq_of_pairwise_key Entry.addr dA he0 he hae
      subst this
      rw [adjust_of_eq _ hae]
      have := cnt e0 he0
      simp only []
      rw [this, ← ha, addrCount_cons_self]
      omega
    · rw [adjust_of_ne _ hae]
      rw [cnt e0 he0, addrCount_cons_ne]
      omega
  · intro x hx
    obtain ⟨e0, he0, rfl⟩ := mem_map_adjust.mp hx
    by_cases hae : e0.addr = e.addr
    · rw [adjust_of_eq _ hae]
      simp only []
      omega
    · rw [adjust_of_ne _ hae]
      exact pos e0 he0
  · intro h' hm
    rcases List.mem_cons.mp hm with rfl | hm'
    · exact ⟨Registry.adjust (· + 1) e.addr e, List.mem_map_of_mem _ he, by simp [ha], by simp [hc]⟩
    · obtain ⟨e0, he0, h1, h2⟩ := liv h' hm'
      exact ⟨Registry.adjust (· + 1) e.addr e0, List.mem_map_of_mem _ he0, by simp [h1], by simp [h2]⟩
  · obtain ⟨e0, he0, h1, h2⟩ := pin
    exact ⟨Registry.adjust (· + 1) e.addr e0, List.mem_map_of_mem _ he0, by simp [h1], by simp [h2]⟩

/-! ### Computation lemmas for `Symbol.new` and `Symbol.get` -/

lemma new_found {r : Registry} {s : String} {e : Entry}
    (hf : r.find? s = some e) (hb : 0 < e.refCount) :
    Symbol.new r s = (⟨e.addr, e.content⟩, r.bumpAt e.addr) := by
  unfold Symbol.new
  rw [hf]
  simp [hb]

lemma new_not_found {r : Registry} {s : String} (hf : r.find? s = none) :
    Symbol.new r s =
      (⟨r.nextAddr, s⟩,
       ⟨⟨r.nextAddr, s, 1⟩ :: r.entries.filter (fun x => x.content != s), r.nextAddr + 1⟩) := by
  unfold Symbol.new
  rw [hf]
  rfl

lemma new_content (r : Registry) (s : String) : (Symbol.new r s).1.content = s := by
  unfold Symbol.new
  cases hf : r.find? s with
  | none => rfl
  | some e =>
    have := (find?_mem hf).2
    by_cases hb : 0 < e.refCount <;> simp [hb, this, SymbolPtr.alloc]

lemma get_found {r : Registry} {s : String} {e : Entry}
    (hf : r.find? s = some e) (hb : 0 < e.refCount) :
    Symbol.get r s = (some ⟨e.addr, e.content⟩, r.bumpAt e.addr) := by
  unfold Symbol.get
  rw [hf]
  simp [hb]

lemma get_not_found {r : Registry} {s : String} (hf : r.find? s = none) :
    Symbol.get r s = (none, r) := by
  unfold Symbol.get
  rw [hf]

/-- Under the invariant, the zero-count branch of `Symbol::new` is dead:
interning always either shares the resident entry or allocates a fresh one
on a genuine miss. -/
lemma RegInv.new {r : Registry} {L : List Symbol} (hinv : RegInv r L) (s : String) :
    RegInv (Symbol.new r s).2 ((Symbol.new r s).1 :: L) := by
  cases hf : r.find? s with
  | some e =>
    obtain ⟨he, hc⟩ := find?_mem hf
    have hb : 0 < e.refCount := hinv.pos e he
    rw [new_found hf hb]
    exact hinv.bump he ⟨e.addr, e.content⟩ rfl rfl
  | none =>
    have hnotin : ∀ e ∈ r.entries, e.content ≠ s := find?_none_iff.mp hf
    have hfilter : r.entries.filter (fun x => x.content != s) = r.entries := by
      apply List.filter_eq_self.mpr
      intro e he
      simpa using hnotin e he
    have hs : s ≠ "" := by
      intro hse
      obtain ⟨e0, he0, _, h2⟩ := hinv.emptyPin
      exact hnotin e0 he0 (h2.trans hse.symm)
    have hLfresh : ∀ h ∈ L, h.addr ≠ r.nextAddr := by
      intro h hm
      obtain ⟨e0, he0, h1, _⟩ := hinv.liveIn h hm
      have := hinv.fresh e0 he0
      omega
    rw [new_not_found hf]
    simp only [hfilter]
    obtain ⟨dC, dA, fr, cnt, pos, liv, pin⟩ := hinv
    refine ⟨?_, ?_, ?_, ?_, ?_, ?_, ?_⟩
    · exact List.pairwise_cons.mpr ⟨fun e he => fun hh => hnotin e he hh.symm, dC⟩
    · refine List.pairwise_cons.mpr ⟨fun e he => ?_, dA⟩
      have := fr e he
      simp only []
      omega
    · intro e he
      rcases List.mem_cons.mp he with rfl | he'
      · simp
      · have := fr e he'
        simp only []
        omega
    · intro e he
      rcases List.mem_cons.mp he with rfl | he'
      · simp only []
        rw [addrCount_cons_self]
        have h0 : addrCount L r.nextAddr = 0 := addrCount_eq_zero_iff.mpr hLfresh
        simp [bias, hs, h0]
      · rw [cnt e he', addrCount_cons_ne]
        have := fr e he'
        simp only []
        omega
    · intro e he
      rcases List.mem_cons.mp he with rfl | he'
      · simp
      · exact pos e he'
    · intro h hm
      rcases List.mem_cons.mp hm with rfl | hm'
      · exact ⟨⟨r.nextAddr, s, 1⟩, List.mem_cons_self _ _, rfl, rfl⟩
      · obtain ⟨e0, he0, h1, h2⟩ := liv h hm'
        exact ⟨e0, List.mem_cons_of_mem _ he0, h1, h2⟩
    · obtain ⟨e0, he0, h1, h2⟩ := pin
      exact ⟨e0, List.mem_cons_of_mem _ he0, h1, h2⟩

lemma RegInv.get_some {r : Registry} {L : List Symbol} {s : String} {h : Symbol}
    (hinv : RegInv r L) (hg : (Symbol.get r s).1 = some h) :
    RegInv (Symbol.get r s).2 (h :: L) ∧ h.content = s := by
  cases hf : r.find? s with
  | some e =>
    obtain ⟨he, hc⟩ := find?_mem hf
    have hb : 0 < e.refCount := hinv.pos e he
    rw [get_found hf hb] at hg ⊢
    simp only [Option.some.injEq] at hg
    subst hg
    exact ⟨hinv.bump he ⟨e.addr, e.content⟩ rfl rfl, hc⟩
  | none =>
    rw [get_not_found hf] at hg
    cases hg

lemma RegInv.get_none {r : Registry} {L : List Symbol} {s : String}
    (hinv : RegInv r L) (hg : (Symbol.get r s).1 = none) :
    (Symbol.get r s).2 = r ∧ r.find? s = none := by
  cases hf : r.find? s with
  | some e =>
    obtain ⟨he, _⟩ := find?_mem hf
    have hb : 0 < e.refCount := hinv.pos e he
    rw [get_found hf hb] at hg
    cases hg
  | none =>
    rw [get_not_found hf]
    exact ⟨rfl, rfl⟩

lemma RegInv.clone {r : Registry} {L : List Symbol} {h : Symbol}
    (hinv : RegInv r L) (hm : h ∈ L) :
    RegInv (Symbol.clone r h).2 (h :: L) := by
  obtain ⟨e, he, hea, hec⟩ := hinv.liveIn h hm
  have hb := hinv.bump he h hea.symm hec.symm
  unfold Symbol.clone
  rw [← hea]
  exact hb

/-- Re-acquiring a resident symbol and dropping the temporary handle leaves
the registry exactly as it was. -/
lemma get_drop_id {r : Registry} {L : List Symbol} {s : String} {h : Symbol}
    (hinv : RegInv r L) (hg : (Symbol.get r s).1 = some h) :
    Symbol.drop (Symbol.get r s).2 h = r := by
  cases hf : r.find? s with
  | some e =>
    obtain ⟨he, _⟩ := find?_mem hf
    have hb : 0 < e.refCount := hinv.pos e he
    rw [get_found hf hb] at hg ⊢
    simp only [Option.some.injEq] at hg
    subst hg
    unfold Symbol.drop
    have hmem : Registry.adjust (· + 1) e.addr e ∈ (r.bumpAt e.addr).entries :=
      List.mem_map_of_mem _ he
    have hfa : (r.bumpAt e.addr).findAddr? e.addr = some (Registry.adjust (· + 1) e.addr e) := by
      apply findAddr?_eq_of_mem (pairwiseA_map_adjust _ _ hinv.distinctA) hmem
      simp
    simp only [hfa]
    rw [adjust_of_eq _ rfl]
    have hne : ¬ (e.refCount + 1 == 1) = true := by
      simp
      omega
    simp only [hne, if_neg, Bool.false_eq_true]
    exact decAt_bumpAt r e.addr
  | none =>
    rw [get_not_found hf] at hg
    cases hg

/-- Cloning a live handle and dropping the clone leaves the registry
exactly as it was. -/
lemma clone_drop_id {r : Registry} {L : List Symbol} {h : Symbol}
    (hinv : RegInv r L) (hm : h ∈ L) :
    Symbol.drop (Symbol.clone r h).2 h = r := by
  obtain ⟨e, he, hea, hec⟩ := hinv.liveIn h hm
  unfold Symbol.clone Symbol.drop
  have hmem : Registry.adjust (· + 1) h.addr e ∈ (r.bumpAt h.addr).entries :=
    List.mem_map_of_mem _ he
  have hfa : (r.bumpAt h.addr).findAddr? h.addr = some (Registry.adjust (· + 1) h.addr e) := by
    apply findAddr?_eq_of_mem (pairwiseA_map_adjust _ _ hinv.distinctA) hmem
    simp [hea]
  simp only [hfa]
  rw [adjust_of_eq _ hea]
  have hcount : e.refCount = bias e.content + addrCount L e.addr := hinv.counts e he
  have hpos : 0 < addrCount L e.addr := by
    rw [hea]
    exact addrCount_pos_of_mem hm
  have hne : ¬ (e.refCount + 1 == 1) = true := by
    simp
    omega
  simp only [hne, if_neg, Bool.false_eq_true]
  exact decAt_bumpAt r h.addr

/-! ### Dropping the last handle destroys the entry -/

lemma filter_map_adjust {l : List Entry} {a : Nat} {c : String} (δ : Nat → Nat)
    (hknow : ∀ e0 ∈ l, e0.content ≠ c → e0.addr ≠ a) :
    (l.map (Registry.adjust δ a)).filter (fun x => x.content != c)
      = l.filter (fun x => x.content != c) := by
  induction l with
  | nil => rfl
  | cons x xs ih =>
    have ihx := ih (fun e0 he0 => hknow e0 (List.mem_cons_of_mem _ he0))
    by_cases hc : x.content = c
    · simp [List.filter_cons, hc, ihx]
    · have hax : x.addr ≠ a := hknow x (List.mem_cons_self _ _) hc
      simp [List.filter_cons, hc, adjust_of_ne δ hax, ihx]

/-- Dropping a live handle preserves the registry invariant with the
handle removed from the live multiset: the count merely decrements unless
this was the last handle, in which case the entry leaves the registry. -/
lemma RegInv.drop {r : Registry} {L : List Symbol} {h : Symbol}
    (hinv : RegInv r (h :: L)) : RegInv (Symbol.drop r h) L := by
  obtain ⟨e, he, hea, hec⟩ := hinv.liveIn h (List.mem_cons_self h L)
  have hfa : r.findAddr? h.addr = some e := findAddr?_eq_of_mem hinv.distinctA he hea
  have hcnt : e.refCount = bias e.content + addrCount (h :: L) e.addr := hinv.counts e he
  have hself : addrCount (h :: L) e.addr = addrCount L e.addr + 1 := by
    rw [hea]
    exact addrCount_cons_self h L
  unfold Symbol.drop
  simp only [hfa]
  by_cases h1 : e.refCount = 1
  · -- The last handle: count 1 means no bias and no other live handle.
    have hbias : bias e.content = 0 := by omega
    have hzero : addrCount L e.addr = 0 := by omega
    have hcne : e.content ≠ "" := by
      intro hcc
      simp [bias, hcc] at hbias
    have hnoc : ∀ e0 ∈ r.entries, e0.content ≠ h.content → e0.addr ≠ h.addr := by
      intro e0 he0 hc0 hax
      have : e0 = e := eq_of_pairwise_key Entry.addr hinv.distinctA he0 he (hax.trans hea.symm)
      exact hc0 (this ▸ hec.symm ▸ rfl)
    have hdec_mem : Registry.adjust (· - 1) h.addr e ∈ (r.decAt h.addr).entries :=
      List.mem_map_of_mem _ he
    have hfc : (r.decAt h.addr).find? h.content = some (Registry.adjust (· - 1) h.addr e) := by
      apply find?_eq_of_mem (pairwiseC_map_adjust _ _ hinv.distinctC) hdec_mem
      simp [hec]
    simp only [h1, beq_self_eq_true, if_true]
    unfold Symbol.destroy
    simp only [hfc]
    rw [show (Registry.adjust (· - 1) h.addr e).addr = e.addr from by simp]
    simp only [hea, beq_self_eq_true, if_true]
    unfold Registry.removeContent
    simp only [decAt_entries, decAt_nextAddr]
    rw [filter_map_adjust _ hnoc]
    -- the invariant for the filtered registry
    refine ⟨hinv.distinctC.filter _, hinv.distinctA.filter _, ?_, ?_, ?_, ?_, ?_⟩
    · intro x hx
      exact hinv.fresh x (List.mem_of_mem_filter hx)
    · intro x hx
      have hx0 := List.mem_of_mem_filter hx
      have hxc : x.content ≠ h.content := by
        have := List.of_mem_filter hx
        simpa using this
      have hxa : x.addr ≠ h.addr := hnoc x hx0 hxc
      rw [hinv.counts x hx0, addrCount_cons_ne h L (fun hh => hxa hh.symm)]
    · intro x hx
      exact hinv.pos x (List.mem_of_mem_filter hx)
    · intro h' hm'
      obtain ⟨e0, he0, h1', h2'⟩ := hinv.liveIn h' (List.mem_cons_of_mem _ hm')
      have he0c : e0.content ≠ h.content := by
        intro hcc
        have : e0 = e := eq_of_pairwise_key Entry.content hinv.distinctC he0 he
          (hcc.trans hec.symm)
        subst this
        have : h'.addr = e0.addr := h1'.symm
        have hmem0 : 0 < addrCount L e0.addr := by
          rw [← this]
          have : h' ∈ L.filter (fun x => x.addr == h'.addr) := by
            simp [List.mem_filter, hm']
          exact List.length_pos.mpr (List.ne_nil_of_mem this)
        omega
      refine ⟨e0, ?_, h1', h2'⟩
      rw [List.mem_filter]
      exact ⟨he0, by simpa using he0c⟩
    · obtain ⟨e0, he0, h1', h2'⟩ := hinv.emptyPin
      have he0c : e0.content ≠ h.content := by
        rw [h2']
        intro hcc
        exact hcne (hec.trans hcc.symm)
      refine ⟨e0, ?_, h1', h2'⟩
      rw [List.mem_filter]
      exact ⟨he0, by simpa using he0c⟩
  · -- Not the last handle: the count decrements.
    have hne : ¬ (e.refCount == 1) = true := by simpa using h1
    simp only [hne, if_neg, Bool.false_eq_true]
    obtain ⟨dC, dA, fr, cnt, pos, liv, pin⟩ := hinv
    refine ⟨pairwiseC_map_adjust _ _ dC, pairwiseA_map_adjust _ _ dA, ?_, ?_, ?_, ?_, ?_⟩
    · intro x hx
      obtain ⟨e0, he0, rfl⟩ := mem_map_adjust.mp hx
      simpa using fr e0 he0
    · intro x hx
      obtain ⟨e0, he0, rfl⟩ := mem_map_adjust.mp hx
      by_cases hae : e0.addr = h.addr
      · have : e0 = e := eq_of_pairwise_key Entry.addr dA he0 he (hae.trans hea.symm)
        subst this
        rw [adjust_of_eq _ hae]
        simp only []
        rw [cnt e0 he0]
        have hsf : addrCount (h :: L) e0.addr = addrCount L e0.addr + 1 := by
          rw [hae]
          have := addrCount_cons_self h L
          simpa [hae] using this
        omega
      · rw [adjust_of_ne _ hae]
        rw [cnt e0 he0, addrCount_cons_ne h L (fun hh => hae hh.symm)]
    · intro x hx
      obtain ⟨e0, he0, rfl⟩ := mem_map_adjust.mp hx
      by_cases hae : e0.addr = h.addr
      · have : e0 = e := eq_of_pairwise_key Entry.addr dA he0 he (hae.trans hea.symm)
        subst this
        rw [adjust_of_eq _ hae]
        simp only []
        have := pos e0 he0
        omega
      · rw [adjust_of_ne _ hae]
        exact pos e0 he0
    · intro h' hm'
      obtain ⟨e0, he0, h1', h2'⟩ := liv h' (List.mem_cons_of_mem _ hm')
      exact ⟨Registry.adjust (· - 1) h.addr e0, List.mem_map_of_mem _ he0, by simp [h1'],
        by simp [h2']⟩
    · obtain ⟨e0, he0, h1', h2'⟩ := pin
      exact ⟨Registry.adjust (· - 1) h.addr e0, List.mem_map_of_mem _ he0, by simp [h1'],
        by simp [h2']⟩

/-! ### The invariant holds in every reachable state -/

lemma perm_cons_eraseIdx {α : Type _} {l : List α} {i : Nat} {x : α}
    (h : l[i]? = some x) : l.Perm (x :: l.eraseIdx i) := by
  induction l generalizing i with
  | nil => simp at h
  | cons a t ih =>
    cases i with
    | zero =>
      simp at h
      subst h
      simp [List.eraseIdx]
    | succ n =>
      simp at h
      have ht := ih h
      simpa [List.eraseIdx] using (ht.cons a).trans (List.Perm.swap x a _)

lemma step_newOp (st : St) (s : String) :
    st.step (Op.newOp s) = ⟨(Symbol.new st.reg s).2, (Symbol.new st.reg s).1 :: st.live⟩ := rfl

lemma step_defaultOp (st : St) :
    st.step Op.defaultOp =
      ⟨(Symbol.defaultSym st.reg).2, (Symbol.defaultSym st.reg).1 :: st.live⟩ := rfl

lemma step_getOp_some {st : St} {s : String} {h : Symbol}
    (hg : (Symbol.get st.reg s).1 = some h) :
    st.step (Op.getOp s) = ⟨(Symbol.get st.reg s).2, h :: st.live⟩ := by
  simp only [St.step, hg]

lemma step_getOp_none {st : St} {s : String} (hg : (Symbol.get st.reg s).1 = none) :
    st.step (Op.getOp s) = ⟨(Symbol.get st.reg s).2, st.live⟩ := by
  simp only [St.step, hg]

lemma step_cloneOp_some {st : St} {i : Nat} {h : Symbol} (hg : st.live[i]? = some h) :
    st.step (Op.cloneOp i) =
      ⟨(Symbol.clone st.reg h).2, (Symbol.clone st.reg h).1 :: st.live⟩ := by
  simp only [St.step, hg]

lemma step_cloneOp_none {st : St} {i : Nat} (hg : st.live[i]? = none) :
    st.step (Op.cloneOp i) = st := by
  simp only [St.step, hg]

lemma step_dropOp_some {st : St} {i : Nat} {h : Symbol} (hg : st.live[i]? = some h) :
    st.step (Op.dropOp i) = ⟨Symbol.drop st.reg h, st.live.eraseIdx i⟩ := by
  simp only [St.step, hg]

lemma step_dropOp_none {st : St} {i : Nat} (hg : st.live[i]? = none) :
    st.step (Op.dropOp i) = st := by
  simp only [St.step, hg]

lemma WF.step_wf {st : St} (hwf : WF st) (op : Op) : WF (st.step op) := by
  cases op with
  | newOp s => exact RegInv.new hwf s
  | defaultOp => exact RegInv.new hwf ""
  | getOp s =>
    cases hg : (Symbol.get st.reg s).1 with
    | some h =>
      rw [WF, step_getOp_some hg]
      exact (RegInv.get_some hwf hg).1
    | none =>
      rw [WF, step_getOp_none hg]
      simp only []
      rw [(RegInv.get_none hwf hg).1]
      exact hwf
  | cloneOp i =>
    cases hg : st.live[i]? with
    | some h =>
      rw [WF, step_cloneOp_some hg]
      have hm : h ∈ st.live := by
        have := List.getElem?_eq_some.mp hg
        obtain ⟨hlt, hval⟩ := this
        exact hval ▸ List.getElem_mem hlt
      exact RegInv.clone hwf hm
    | none =>
      rw [step_cloneOp_none hg]
      exact hwf
  | dropOp i =>
    cases hg : st.live[i]? with
    | some h =>
      rw [WF, step_dropOp_some hg]
      exact RegInv.drop (hwf.perm (perm_cons_eraseIdx hg))
    | none =>
      rw [step_dropOp_none hg]
      exact hwf

lemma WF.apply_wf {st : St} (hwf : WF st) (ops : List Op) : WF (st.apply ops) := by
  induction ops generalizing st with
  | nil => exact hwf
  | cons op rest ih => exact ih (hwf.step_wf op)

lemma registry_init_eq : Registry.init = ⟨[⟨0, "", 2⟩], 1⟩ := rfl

lemma wf_init : WF St.init := by
  refine ⟨?_, ?_, ?_, ?_, ?_, ?_, ?_⟩ <;>
    simp [St.init, registry_init_eq, bias, addrCount]

/-! ### Canonical addresses of live handles -/

/-- Among live handles, content equality and address equality coincide. -/
lemma RegInv.content_iff_addr {r : Registry} {L : List Symbol} (hinv : RegInv r L)
    {h1 h2 : Symbol} (m1 : h1 ∈ L) (m2 : h2 ∈ L) :
    h1.content = h2.content ↔ h1.addr = h2.addr := by
  obtain ⟨e1, he1, ha1, hc1⟩ := hinv.liveIn h1 m1
  obtain ⟨e2, he2, ha2, hc2⟩ := hinv.liveIn h2 m2
  constructor
  · intro hc
    have : e1 = e2 := eq_of_pairwise_key Entry.content hinv.distinctC he1 he2
      (by rw [hc1, hc2, hc])
    rw [← ha1, ← ha2, this]
  · intro ha
    have : e1 = e2 := eq_of_pairwise_key Entry.addr hinv.distinctA he1 he2
      (by rw [ha1, ha2, ha])
    rw [← hc1, ← hc2, this]

/-- Two `Symbol::new` calls at overlapping lifetimes yield address-equal
handles exactly when the contents are equal. -/
lemma new_new_addr_iff {st : St} (hwf : WF st) (s t : String) :
    (Symbol.new st.reg s).1.addr = (Symbol.new (Symbol.new st.reg s).2 t).1.addr ↔ s = t := by
  have hinv1 : RegInv (Symbol.new st.reg s).2 ((Symbol.new st.reg s).1 :: st.live) :=
    RegInv.new hwf s
  have hinv2 : RegInv (Symbol.new (Symbol.new st.reg s).2 t).2
      ((Symbol.new (Symbol.new st.reg s).2 t).1 :: (Symbol.new st.reg s).1 :: st.live) :=
    RegInv.new hinv1 t
  constructor
  · intro ha
    have hmem1 : (Symbol.new st.reg s).1
        ∈ (Symbol.new (Symbol.new st.reg s).2 t).1 :: (Symbol.new st.reg s).1 :: st.live :=
      List.mem_cons_of_mem _ (List.mem_cons_self _ _)
    have hmem2 : (Symbol.new (Symbol.new st.reg s).2 t).1
        ∈ (Symbol.new (Symbol.new st.reg s).2 t).1 :: (Symbol.new st.reg s).1 :: st.live :=
      List.mem_cons_self _ _
    have hci := hinv2.content_iff_addr hmem1 hmem2
    have := hci.mpr ha
    rwa [new_content, new_content] at this
  · intro hst
    subst hst
    obtain ⟨e, he, hea, hec⟩ := hinv1.liveIn (Symbol.new st.reg s).1 (List.mem_cons_self _ _)
    have hf : (Symbol.new st.reg s).2.find? s = some e :=
      find?_eq_of_mem hinv1.distinctC he (by rw [hec, new_content])
    have hb : 0 < e.refCount := hinv1.pos e he
    rw [new_found hf hb]
    exact hea.symm

/-! ### Unconditional stability of re-interning -/

lemma find?_map_adjust (l : List Entry) (δ : Nat → Nat) (a : Nat) (s : String) :
    (l.map (Registry.adjust δ a)).find? (fun e => e.content == s)
      = (l.find? (fun e => e.content == s)).map (Registry.adjust δ a) := by
  induction l with
  | nil => rfl
  | cons x xs ih =>
    by_cases hc : x.content = s
    · simp [List.find?_cons, hc]
    · simp [List.find?_cons, hc, ih]

lemma new_found_zero {r : Registry} {s : String} {e : Entry}
    (hf : r.find? s = some e) (hb : e.refCount = 0) :
    Symbol.new r s =
      (⟨r.nextAddr, s⟩,
       ⟨⟨r.nextAddr, s, 1⟩ :: (r.bumpAt e.addr).entries.filter (fun x => x.content != s),
        r.nextAddr + 1⟩) := by
  unfold Symbol.new
  rw [hf]
  simp [hb, SymbolPtr.alloc, Registry.replace]

/-- Interning the same content again, immediately after an intern, always
lands on the very same allocation — whatever the prior registry state. -/
lemma new_stable (r : Registry) (s : String) :
    (Symbol.new (Symbol.new r s).2 s).1.addr = (Symbol.new r s).1.addr := by
  cases hf : r.find? s with
  | some e =>
    by_cases hb : 0 < e.refCount
    · rw [new_found hf hb]
      have hf2 : (r.bumpAt e.addr).find? s = some (Registry.adjust (· + 1) e.addr e) := by
        unfold Registry.find? at hf ⊢
        rw [bumpAt_entries, find?_map_adjust, hf]
        rfl
      have hb2 : 0 < (Registry.adjust (· + 1) e.addr e).refCount := by
        rw [adjust_of_eq _ rfl]
        simp
      rw [new_found hf2 hb2]
      simp
    · have hb0 : e.refCount = 0 := by omega
      rw [new_found_zero hf hb0]
      have hf2 : (Registry.find?
          ⟨⟨r.nextAddr, s, 1⟩ :: (r.bumpAt e.addr).entries.filter (fun x => x.content != s),
           r.nextAddr + 1⟩ s) = some ⟨r.nextAddr, s, 1⟩ := by
        unfold Registry.find?
        simp [List.find?_cons]
      rw [new_found hf2 (by simp)]
  | none =>
    rw [new_not_found hf]
    have hf2 : (Registry.find?
        ⟨⟨r.nextAddr, s, 1⟩ :: r.entries.filter (fun x => x.content != s),
         r.nextAddr + 1⟩ s) = some ⟨r.nextAddr, s, 1⟩ := by
      unfold Registry.find?
      simp [List.find?_cons]
    rw [new_found hf2 (by simp)]

/-! ### Reference-count arithmetic of create/clone/drop sequences -/

lemma map_adjust_id {E : List Entry} {a : Nat} (δ : Nat → Nat)
    (hA : ∀ e ∈ E, e.addr ≠ a) : E.map (Registry.adjust δ a) = E := by
  rw [List.map_congr_left (fun e he => adjust_of_ne δ (hA e he))]
  exact List.map_id' E

/-- A mixed sequence of `Symbol::new` and `Clone` calls producing further
handles on the same content: `true` stands for an intern, `false` for a
clone of the first live handle. -/
def createOps (s : String) (bs : List Bool) : List Op :=
  bs.map (fun b => if b then Op.newOp s else Op.cloneOp 0)

lemma find?_cons_self (a : Nat) (s : String) (j : Nat) (E : List Entry) (n : Nat) :
    (Registry.find? ⟨⟨a, s, j⟩ :: E, n⟩ s) = some ⟨a, s, j⟩ := by
  unfold Registry.find?
  simp [List.find?_cons]

lemma bump_cons_self {a : Nat} {s : String} {j n : Nat} {E : List Entry}
    (hA : ∀ e ∈ E, e.addr ≠ a) :
    (Registry.bumpAt ⟨⟨a, s, j⟩ :: E, n⟩ a) = ⟨⟨a, s, j + 1⟩ :: E, n⟩ := by
  unfold Registry.bumpAt
  simp only [List.map_cons]
  rw [map_adjust_id _ hA]
  simp [Registry.adjust]

lemma createPhase (E : List Entry) (n a : Nat) (s : String) (L : List Symbol)
    (hA : ∀ e ∈ E, e.addr ≠ a) :
    ∀ (bs : List Bool) (j : Nat), 1 ≤ j →
      St.apply ⟨⟨⟨a, s, j⟩ :: E, n⟩, List.replicate j ⟨a, s⟩ ++ L⟩ (createOps s bs)
        = ⟨⟨⟨a, s, j + bs.length⟩ :: E, n⟩, List.replicate (j + bs.length) ⟨a, s⟩ ++ L⟩ := by
  intro bs
  induction bs with
  | nil =>
    intro j hj
    simp [createOps, St.apply]
  | cons b bs ih =>
    intro j hj
    have hstep : St.step ⟨⟨⟨a, s, j⟩ :: E, n⟩, List.replicate j ⟨a, s⟩ ++ L⟩
        (if b then Op.newOp s else Op.cloneOp 0)
        = ⟨⟨⟨a, s, j + 1⟩ :: E, n⟩, List.replicate (j + 1) ⟨a, s⟩ ++ L⟩ := by
      cases b with
      | true =>
        simp only [if_true]
        rw [step_newOp]
        rw [new_found (find?_cons_self a s j E n) hj]
        rw [bump_cons_self hA]
        simp [List.replicate_succ]
      | false =>
        rw [if_neg (by decide : ¬ (false = true))]
        obtain ⟨m, rfl⟩ : ∃ m, j = m + 1 := ⟨j - 1, by omega⟩
        have hget : (List.replicate (m + 1) (⟨a, s⟩ : Symbol) ++ L)[0]? = some ⟨a, s⟩ := by
          simp [List.replicate_succ]
        rw [step_cloneOp_some hget]
        unfold Symbol.clone
        simp only []
        rw [bump_cons_self hA]
        simp [List.replicate_succ]
    have : createOps s (b :: bs) = (if b then Op.newOp s else Op.cloneOp 0) :: createOps s bs :=
      rfl
    rw [this]
    show St.apply _ (_ :: createOps s bs) = _
    unfold St.apply
    rw [List.foldl_cons]
    show St.apply (St.step _ _) (createOps s bs) = _
    rw [hstep]
    rw [ih (j + 1) (by omega)]
    have harith : j + 1 + bs.length = j + (b :: bs).length := by
      simp only [List.length_cons]
      omega
    rw [harith]

lemma dropPhase (E : List Entry) (n a : Nat) (s : String) (L : List Symbol)
    (hA : ∀ e ∈ E, e.addr ≠ a) (hC : ∀ e ∈ E, e.content ≠ s) :
    ∀ j, 1 ≤ j →
      St.apply ⟨⟨⟨a, s, j⟩ :: E, n⟩, List.replicate j ⟨a, s⟩ ++ L⟩
          (List.replicate j (Op.dropOp 0))
        = ⟨⟨E, n⟩, L⟩ := by
  intro j
  induction j with
  | zero => omega
  | succ m ih =>
    intro _
    have hget : (List.replicate (m + 1) (⟨a, s⟩ : Symbol) ++ L)[0]? = some ⟨a, s⟩ := by
      simp [List.replicate_succ]
    have hfa : (Registry.findAddr? ⟨⟨a, s, m + 1⟩ :: E, n⟩ a) = some ⟨a, s, m + 1⟩ := by
      unfold Registry.findAddr?
      simp [List.find?_cons]
    have herase : (List.replicate (m + 1) (⟨a, s⟩ : Symbol) ++ L).eraseIdx 0
        = List.replicate m ⟨a, s⟩ ++ L := by
      simp [List.replicate_succ, List.eraseIdx]
    cases m with
    | zero =>
      -- last drop: count 1, the entry is destroyed and removed
      show St.apply _ (Op.dropOp 0 :: List.replicate 0 (Op.dropOp 0)) = _
      unfold St.apply
      rw [List.foldl_cons]
      show St.apply (St.step _ _) _ = _
      rw [step_dropOp_some hget]
      unfold Symbol.drop
      rw [hfa]
      simp only [beq_self_eq_true, if_true]
      have hdec : (Registry.decAt ⟨⟨a, s, 1⟩ :: E, n⟩ a) = ⟨⟨a, s, 0⟩ :: E, n⟩ := by
        unfold Registry.decAt
        simp only [List.map_cons]
        rw [map_adjust_id _ hA]
        simp [Registry.adjust]
      rw [hdec]
      unfold Symbol.destroy
      rw [show (Registry.find? ⟨⟨a, s, 0⟩ :: E, n⟩ (Symbol.mk a s).content)
          = some ⟨a, s, 0⟩ from find?_cons_self a s 0 E n]
      simp only [beq_self_eq_true, if_true]
      unfold Registry.removeContent
      simp only []
      have hfilter : (⟨a, s, 0⟩ :: E : List Entry).filter
          (fun e => e.content != (Symbol.mk a s).content) = E := by
        rw [List.filter_cons]
        simp only [show ((⟨a, s, 0⟩ : Entry).content != (Symbol.mk a s).content) = false by simp]
        apply List.filter_eq_self.mpr
        intro e he
        simpa using hC e he
      rw [hfilter, herase]
      simp [St.apply]
    | succ m' =>
      -- not the last drop: the count merely decrements
      show St.apply _ (Op.dropOp 0 :: List.replicate (m' + 1) (Op.dropOp 0)) = _
      unfold St.apply
      rw [List.foldl_cons]
      show St.apply (St.step _ _) _ = _
      rw [step_dropOp_some hget]
      unfold Symbol.drop
      rw [hfa]
      simp only [show ((m' + 1 + 1 : Nat) == 1) = false by simp, Bool.false_eq_true, if_neg,
        not_false_iff]
      have hdec : (Registry.decAt ⟨⟨a, s, m' + 1 + 1⟩ :: E, n⟩ a)
          = ⟨⟨a, s, m' + 1⟩ :: E, n⟩ := by
        unfold Registry.decAt
        simp only [List.map_cons]
        rw [map_adjust_id _ hA]
        simp [Registry.adjust]
      rw [hdec, herase]
      exact ih (by omega)

lemma apply_cons (st : St) (op : Op) (ops : List Op) :
    st.apply (op :: ops) = (st.step op).apply ops := rfl

/-! ## Claims C1 to C6: the interning pool and the Symbol handle -/

/-- C1.  In a single-threaded execution (any well-formed state), any two
live handles with equal content point to the same allocation, and
`Symbol::new(s) == Symbol::new(t)` — pointer equality — holds exactly when
`s == t`. -/
theorem C1_canonicalization_ptr_equality (st : St) (hwf : WF st) (s t : String) :
    (∀ h1 ∈ st.live, ∀ h2 ∈ st.live, (h1.content = h2.content ↔ h1.addr = h2.addr))
    ∧ (Symbol.ptrEq (Symbol.new st.reg s).1 (Symbol.new (Symbol.new st.reg s).2 t).1 = true
        ↔ s = t) := by
  constructor
  · intro h1 m1 h2 m2
    exact RegInv.content_iff_addr hwf m1 m2
  · unfold Symbol.ptrEq
    rw [beq_iff_eq]
    exact new_new_addr_iff hwf s t

/-- Witness for C1 at the freshly initialized registry. -/
theorem C1_canonicalization_ptr_equality_witness :
    (∀ h1 ∈ St.init.live, ∀ h2 ∈ St.init.live, (h1.content = h2.content ↔ h1.addr = h2.addr))
    ∧ (Symbol.ptrEq (Symbol.new St.init.reg "a").1
        (Symbol.new (Symbol.new St.init.reg "a").2 "b").1 = true ↔ "a" = "b") :=
  C1_canonicalization_ptr_equality St.init wf_init "a" "b"

/-- C2.  For a non-empty string `s` absent from the registry, creating
`k = bs.length + 1` live handles (one `Symbol::new` followed by any mix of
`Symbol::new` and `Clone`) yields an observed reference count of exactly
`k`; dropping all `k` handles removes the entry from the registry again,
shrinking it by exactly one entry. -/
theorem C2_reference_counting (st : St) (hwf : WF st) (s : String) (_hs : s ≠ "")
    (habs : st.reg.find? s = none) (bs : List Bool) :
    (∃ e ∈ (st.apply (Op.newOp s :: createOps s bs)).reg.entries,
        e.content = s ∧ e.refCount = bs.length + 1)
    ∧ (st.apply (Op.newOp s :: createOps s bs)).reg.entries.length
        = st.reg.entries.length + 1
    ∧ ((st.apply (Op.newOp s :: createOps s bs)).apply
        (List.replicate (bs.length + 1) (Op.dropOp 0))).reg.find? s = none
    ∧ ((st.apply (Op.newOp s :: createOps s bs)).apply
        (List.replicate (bs.length + 1) (Op.dropOp 0))).reg.entries.length + 1
      = (st.apply (Op.newOp s :: createOps s bs)).reg.entries.length := by
  have hC := find?_none_iff.mp habs
  have hA : ∀ e ∈ st.reg.entries, e.addr ≠ st.reg.nextAddr := by
    intro e he
    have := hwf.fresh e he
    omega
  have hfilter : st.reg.entries.filter (fun x => x.content != s) = st.reg.entries :=
    List.filter_eq_self.mpr (fun e he => by simpa using hC e he)
  have hstep1 : st.step (Op.newOp s)
      = ⟨⟨⟨st.reg.nextAddr, s, 1⟩ :: st.reg.entries, st.reg.nextAddr + 1⟩,
         List.replicate 1 ⟨st.reg.nextAddr, s⟩ ++ st.live⟩ := by
    rw [step_newOp, new_not_found habs]
    simp [hfilter, List.replicate]
  have hcreate : st.apply (Op.newOp s :: createOps s bs)
      = ⟨⟨⟨st.reg.nextAddr, s, 1 + bs.length⟩ :: st.reg.entries, st.reg.nextAddr + 1⟩,
         List.replicate (1 + bs.length) ⟨st.reg.nextAddr, s⟩ ++ st.live⟩ := by
    rw [apply_cons, hstep1]
    exact createPhase st.reg.entries (st.reg.nextAddr + 1) st.reg.nextAddr s st.live hA bs 1
      (le_refl 1)
  have harith : 1 + bs.length = bs.length + 1 := by omega
  have hdrop : ((st.apply (Op.newOp s :: createOps s bs)).apply
        (List.replicate (bs.length + 1) (Op.dropOp 0)))
      = ⟨⟨st.reg.entries, st.reg.nextAddr + 1⟩, st.live⟩ := by
    rw [hcreate, harith]
    exact dropPhase st.reg.entries (st.reg.nextAddr + 1) st.reg.nextAddr s st.live hA hC
      (bs.length + 1) (by omega)
  refine ⟨?_, ?_, ?_, ?_⟩
  · rw [hcreate]
    exact ⟨⟨st.reg.nextAddr, s, 1 + bs.length⟩, List.mem_cons_self _ _, rfl, harith⟩
  · rw [hcreate]
    simp
  · rw [hdrop]
    exact find?_none_iff.mpr hC
  · rw [hdrop, hcreate]
    simp

/-- Witness for C2: two interns and one clone of `"a"` starting from the
initialized registry. -/
theorem C2_reference_counting_witness :
    (∃ e ∈ (St.init.apply (Op.newOp "a" :: createOps "a" [true, false])).reg.entries,
        e.content = "a" ∧ e.refCount = 3)
    ∧ (St.init.apply (Op.newOp "a" :: createOps "a" [true, false])).reg.entries.length
        = St.init.reg.entries.length + 1
    ∧ ((St.init.apply (Op.newOp "a" :: createOps "a" [true, false])).apply
        (List.replicate 3 (Op.dropOp 0))).reg.find? "a" = none
    ∧ ((St.init.apply (Op.newOp "a" :: createOps "a" [true, false])).apply
        (List.replicate 3 (Op.dropOp 0))).reg.entries.length + 1
      = (St.init.apply (Op.newOp "a" :: createOps "a" [true, false])).reg.entries.length :=
  C2_reference_counting St.init wf_init "a" (by decide) (by decide) [true, false]

/-- C3.  `Symbol::new(s).cmp(&Symbol::new(t))` equals `s.cmp(&t)`: the
address-equality short-circuit agrees with content comparison because of
canonicalization, and otherwise the comparison is the byte-wise content
order, so the order on Symbols is the content order. -/
theorem C3_ord_consistent_with_content (st : St) (hwf : WF st) (s t : String) :
    Symbol.cmp (Symbol.new st.reg s).1 (Symbol.new (Symbol.new st.reg s).2 t).1
      = strCmp s t := by
  have hiff := new_new_addr_iff hwf s t
  by_cases hst : s = t
  · have ha := hiff.mpr hst
    unfold Symbol.cmp Symbol.ptrEq
    rw [ha]
    simp [strCmp, hst]
  · have ha : (Symbol.new st.reg s).1.addr ≠ (Symbol.new (Symbol.new st.reg s).2 t).1.addr :=
      fun hh => hst (hiff.mp hh)
    have hbeq : ((Symbol.new st.reg s).1.addr
        == (Symbol.new (Symbol.new st.reg s).2 t).1.addr) = false := by
      simpa using ha
    unfold Symbol.cmp Symbol.ptrEq
    rw [hbeq]
    simp [new_content]

/-- Witness for C3 at the freshly initialized registry. -/
theorem C3_ord_consistent_with_content_witness :
    Symbol.cmp (Symbol.new St.init.reg "b").1 (Symbol.new (Symbol.new St.init.reg "b").2 "a").1
      = strCmp "b" "a" :=
  C3_ord_consistent_with_content St.init wf_init "b" "a"

/-- The `Hash`-through-`Borrow` table lookup: compare the hash of the
written data, then the borrowed content (how a `HashMap` keyed by `Symbol`
resolves a borrowed `&str` query). -/
def hashLookup {V : Type} (hasher : String → Nat) (tbl : List (Symbol × V)) (q : String) :
    Option V :=
  (tbl.find? (fun kv => hasher kv.1.borrowStr == hasher q && kv.1.borrowStr == q)).map (·.2)

/-- Lookup by plain string content. -/
def contentLookup {V : Type} (tbl : List (Symbol × V)) (q : String) : Option V :=
  (tbl.find? (fun kv => kv.1.borrowStr == q)).map (·.2)

/-- C4.  Hashing a Symbol writes exactly the data of its payload string,
so `hash(Symbol::new(s)) = hash(s)` for every hasher, and a borrowed-string
lookup against a Symbol-keyed table behaves exactly like content lookup —
no Symbol needs to be constructed first. -/
theorem C4_hash_parity {V : Type} (hasher : String → Nat) (r : Registry) (s : String)
    (tbl : List (Symbol × V)) (q : String) :
    Symbol.hashVal hasher (Symbol.new r s).1 = hasher s
    ∧ hashLookup hasher tbl q = contentLookup tbl q := by
  constructor
  · unfold Symbol.hashVal
    rw [new_content]
  · unfold hashLookup contentLookup
    have hpred : (fun kv : Symbol × V =>
        hasher kv.1.borrowStr == hasher q && kv.1.borrowStr == q)
        = (fun kv : Symbol × V => kv.1.borrowStr == q) := by
      funext kv
      by_cases hc : kv.1.borrowStr = q
      · simp [hc]
      · simp [hc]
    rw [hpred]

/-- C5.  Serialization emits the payload as the plain string, and
deserializing that encoding interns it back to the address-equal canonical
handle: `decode(encode(Symbol::new(s))) == Symbol::new(s)` by address. -/
theorem C5_serde_roundtrip (r : Registry) (s : String) :
    Symbol.serialize (Symbol.new r s).1 = s
    ∧ Symbol.ptrEq (Symbol.deserialize (Symbol.new r s).2
        (Symbol.serialize (Symbol.new r s).1)).1 (Symbol.new r s).1 = true := by
  have hser : Symbol.serialize (Symbol.new r s).1 = s := new_content r s
  refine ⟨hser, ?_⟩
  rw [hser]
  unfold Symbol.deserialize Symbol.ptrEq
  rw [beq_iff_eq]
  exact new_stable r s

/-- C6.  The registry is initialized with the empty entry at count 2; in
every reachable state the pinned empty entry is resident at address 0 with
count `2 + (live empty handles)` — never below 2, equal to 2 after any
balanced sequence — and `Symbol::default()` as well as `Symbol::new("")`
resolve, address-equal, to it. -/
theorem C6_empty_entry_pinned (ops : List Op) :
    Registry.init = ⟨[⟨0, "", 2⟩], 1⟩
    ∧ (∃ e ∈ (St.init.apply ops).reg.entries,
        e.addr = 0 ∧ e.content = ""
        ∧ e.refCount = 2 + addrCount (St.init.apply ops).live 0
        ∧ 2 ≤ e.refCount
        ∧ (addrCount (St.init.apply ops).live 0 = 0 → e.refCount = 2))
    ∧ (Symbol.new (St.init.apply ops).reg "").1.addr = 0
    ∧ (Symbol.defaultSym (St.init.apply ops).reg).1.addr = 0 := by
  have hwf : WF (St.init.apply ops) := wf_init.apply_wf ops
  obtain ⟨e, he, hea, hec⟩ := hwf.emptyPin
  have hcnt := hwf.counts e he
  rw [hec, hea] at hcnt
  have hb : bias "" = 2 := rfl
  have hf : (St.init.apply ops).reg.find? "" = some e := find?_eq_of_mem hwf.distinctC he hec
  have hpos : 0 < e.refCount := hwf.pos e he
  have hnew0 : (Symbol.new (St.init.apply ops).reg "").1.addr = 0 := by
    rw [new_found hf hpos]
    exact hea
  refine ⟨rfl, ⟨e, he, hea, hec, ?_, ?_, ?_⟩, hnew0, hnew0⟩
  · rw [hcnt, hb]
  · rw [hcnt, hb]
    omega
  · intro hz
    rw [hcnt, hb, hz]

/-! ## The ordered symbol map (`map.rs`)

`SymbolMap` keeps an insertion-ordered `items` sequence plus an optional
secondary index (`map`), a `HashMap<Symbol, usize>` from key to position.
`Symbol`'s `Eq` is address comparison and its `Hash` is content hashing,
so a homogeneous `HashMap` lookup keys on the address while a heterogeneous
(`Borrow<str>`) lookup keys on the content.  Registry effects are threaded
explicitly: every clone stored in the index bumps a count, every dropped
handle decrements one. -/

def SMALL_MAP_SIZE : Nat := 8

structure SymbolMap (V : Type) where
  items : List (Symbol × V)
  map : Option (List (Symbol × Nat))

/-- `HashMap<Symbol, usize>` lookup by `&Symbol` key (address equality). -/
def idxGet (idx : List (Symbol × Nat)) (s : Symbol) : Option Nat :=
  (idx.find? (fun p => p.1.addr == s.addr)).map (·.2)

/-- `HashMap<Symbol, usize>::contains_key::<str>`: heterogeneous lookup by
the borrowed key content. -/
def idxContainsStr (idx : List (Symbol × Nat)) (q : String) : Bool :=
  idx.any (fun p => p.1.content == q)

/-- Drop a list of handles in order. -/
def dropAll (r : Registry) : List Symbol → Registry
  | [] => r
  | h :: t => dropAll (Symbol.drop r h) t

/-- The handles held by the index (empty when the index is absent). -/
def SymbolMap.idxSyms {V : Type} (m : SymbolMap V) : List Symbol :=
  match m.map with
  | some idx => idx.map (·.1)
  | none => []

/-- All handles the map owns: one per item plus the index's clones. -/
def SymbolMap.holders {V : Type} (m : SymbolMap V) : List Symbol :=
  m.items.map (·.1) ++ m.idxSyms

/-- The index-building loop of `rebuild_map`: for each position, insert a
clone of the item's key.  (`HashMap::insert` keeps the old key and drops
the new one when the key is already present.) -/
def buildIdx {V : Type} : Registry → List (Symbol × V) → Nat → List (Symbol × Nat) →
    List (Symbol × Nat) × Registry
  | r, [], _, acc => (acc, r)
  | r, p :: rest, i, acc =>
    if acc.any (fun q => q.1.addr == (Symbol.clone r p.1).1.addr) then
      buildIdx (Symbol.drop (Symbol.clone r p.1).2 (Symbol.clone r p.1).1) rest (i + 1)
        (acc.map (fun q => if q.1.addr == (Symbol.clone r p.1).1.addr then (q.1, i) else q))
    else
      buildIdx (Symbol.clone r p.1).2 rest (i + 1) (acc ++ [((Symbol.clone r p.1).1, i)])

/-- `SymbolMap::rebuild_map`: drop the index when small, otherwise clear it
(dropping its handles) and re-insert every key with its current position. -/
def rebuild_map {V : Type} (r : Registry) (m : SymbolMap V) : SymbolMap V × Registry :=
  if m.items.length ≤ SMALL_MAP_SIZE then
    (⟨m.items, none⟩, dropAll r m.idxSyms)
  else
    (⟨m.items, some (buildIdx (dropAll r m.idxSyms) m.items 0 []).1⟩,
     (buildIdx (dropAll r m.idxSyms) m.items 0 []).2)

def SymbolMap.new (V : Type) : SymbolMap V := ⟨[], none⟩

def SymbolMap.with_capacity (V : Type) (capacity : Nat) : SymbolMap V :=
  ⟨[], if capacity > SMALL_MAP_SIZE then some [] else none⟩

def SymbolMap.len {V : Type} (m : SymbolMap V) : Nat := m.items.length

/-- `SymbolMap::clear`: drop every item pair, then the whole index. -/
def SymbolMap.clear {V : Type} (r : Registry) (m : SymbolMap V) :
    SymbolMap V × Registry :=
  (⟨[], none⟩, dropAll (dropAll r (m.items.map (·.1))) m.idxSyms)

/-- `SymbolMap::contains_key`: resolve the borrowed content against the
pool first; on a hit consult the index (content lookup) or scan by address;
the temporary handle is dropped before returning. -/
def SymbolMap.contains_key {V : Type} (r : Registry) (m : SymbolMap V) (q : String) :
    Bool × Registry :=
  match (Symbol.get r q).1 with
  | some s =>
    (match m.map with
     | some idx => idxContainsStr idx q
     | none => m.items.any (fun e => e.1.addr == s.addr),
     Symbol.drop (Symbol.get r q).2 s)
  | none => (false, (Symbol.get r q).2)

/-- `SymbolMap::get`: resolve the content to a canonical handle, then read
through the index (`get_unchecked` of the recorded position) or scan. -/
def SymbolMap.get {V : Type} (r : Registry) (m : SymbolMap V) (q : String) :
    Option V × Registry :=
  match (Symbol.get r q).1 with
  | some s =>
    (match m.map with
     | some idx =>
       match idxGet idx s with
       | some i => (m.items[i]?).map (·.2)
       | none => none
     | none => (m.items.find? (fun e => e.1.addr == s.addr)).map (·.2),
     Symbol.drop (Symbol.get r q).2 s)
  | none => (none, (Symbol.get r q).2)

/-- `SymbolMap::remove`: locate via the index (then rebuild) or by scan
(no rebuild below the threshold); the removed pair's key and the temporary
lookup handle are dropped. -/
def SymbolMap.remove {V : Type} (r : Registry) (m : SymbolMap V) (q : String) :
    Option V × SymbolMap V × Registry :=
  match (Symbol.get r q).1 with
  | some s =>
    match m.map with
    | some idx =>
      match idxGet idx s with
      | some i =>
        match m.items[i]? with
        | some e =>
          (some e.2, (rebuild_map (Symbol.get r q).2 ⟨m.items.eraseIdx i, m.map⟩).1,
           Symbol.drop (Symbol.drop
             (rebuild_map (Symbol.get r q).2 ⟨m.items.eraseIdx i, m.map⟩).2 e.1) s)
        | none => (none, m, Symbol.drop (Symbol.get r q).2 s)
      | none => (none, m, Symbol.drop (Symbol.get r q).2 s)
    | none =>
      match m.items.findIdx? (fun e => s.addr == e.1.addr) with
      | some i =>
        match m.items[i]? with
        | some e =>
          (some e.2, ⟨m.items.eraseIdx i, none⟩,
           Symbol.drop (Symbol.drop (Symbol.get r q).2 e.1) s)
        | none => (none, m, Symbol.drop (Symbol.get r q).2 s)
      | none => (none, m, Symbol.drop (Symbol.get r q).2 s)
  | none => (none, m, (Symbol.get r q).2)

/-- `SymbolMap::remove_at`: `Vec::remove` panics (`none`) when the index is
out of bounds; otherwise the pair is removed, the index rebuilt, the
removed key dropped and the removed value returned. -/
def SymbolMap.remove_at {V : Type} (r : Registry) (m : SymbolMap V) (index : Nat) :
    Option (V × SymbolMap V × Registry) :=
  match m.items[index]? with
  | some e =>
    some (e.2, (rebuild_map r ⟨m.items.eraseIdx index, m.map⟩).1,
      Symbol.drop (rebuild_map r ⟨m.items.eraseIdx index, m.map⟩).2 e.1)
  | none => none

/-- `SymbolMap::insert`: with an index, `entry(k.clone())` either swaps the
value in place (occupied — the clone and `k` are dropped) or pushes and
records the new position; without one, scan (swap on a hit, dropping `k`)
or push and reconsider the threshold. -/
def SymbolMap.insert {V : Type} (r : Registry) (m : SymbolMap V) (k : Symbol) (v : V) :
    Option V × SymbolMap V × Registry :=
  match m.map with
  | some idx =>
    match idxGet idx (Symbol.clone r k).1 with
    | some i =>
      match m.items[i]? with
      | some e =>
        (some e.2, ⟨m.items.set i (e.1, v), m.map⟩,
         Symbol.drop (Symbol.drop (Symbol.clone r k).2 (Symbol.clone r k).1) k)
      | none => (none, m, Symbol.drop (Symbol.drop (Symbol.clone r k).2 (Symbol.clone r k).1) k)
    | none =>
      (none, ⟨m.items ++ [(k, v)], some (idx ++ [((Symbol.clone r k).1, m.items.length)])⟩,
       (Symbol.clone r k).2)
  | none =>
    match m.items.findIdx? (fun e => e.1.addr == k.addr) with
    | some i =>
      match m.items[i]? with
      | some e => (some e.2, ⟨m.items.set i (e.1, v), none⟩, Symbol.drop r k)
      | none => (none, m, Symbol.drop r k)
    | none =>
      (none, (rebuild_map r ⟨m.items ++ [(k, v)], none⟩).1,
       (rebuild_map r ⟨m.items ++ [(k, v)], none⟩).2)

/-- `SymbolMap::insert_at`: remove any entry for `k` (resolved by content),
then `Vec::insert` (panics — `none` — past the end), then rebuild. -/
def SymbolMap.insert_at {V : Type} (r : Registry) (m : SymbolMap V) (index : Nat)
    (k : Symbol) (v : V) : Option (Option V × SymbolMap V × Registry) :=
  if index ≤ (SymbolMap.remove r m k.content).2.1.items.length then
    some ((SymbolMap.remove r m k.content).1,
      (rebuild_map (SymbolMap.remove r m k.content).2.2
        ⟨(SymbolMap.remove r m k.content).2.1.items.insertIdx index (k, v),
         (SymbolMap.remove r m k.content).2.1.map⟩).1,
      (rebuild_map (SymbolMap.remove r m k.content).2.2
        ⟨(SymbolMap.remove r m k.content).2.1.items.insertIdx index (k, v),
         (SymbolMap.remove r m k.content).2.1.map⟩).2)
  else none

/-- `SymbolMap::pop_front`: `Vec::pop` — removes and returns the LAST pair
of the sequence — then rebuild. -/
def SymbolMap.pop_front {V : Type} (r : Registry) (m : SymbolMap V) :
    Option (Symbol × V) × SymbolMap V × Registry :=
  match m.items.getLast? with
  | some e =>
    (some e, (rebuild_map r ⟨m.items.dropLast, m.map⟩).1,
     (rebuild_map r ⟨m.items.dropLast, m.map⟩).2)
  | none => (none, m, r)

/-- `SymbolMap::pop_back`: `Vec::remove(len - 1)` — also the last pair —
then rebuild. -/
def SymbolMap.pop_back {V : Type} (r : Registry) (m : SymbolMap V) :
    Option (Symbol × V) × SymbolMap V × Registry :=
  if m.items.isEmpty then (none, m, r)
  else
    match m.items.getLast? with
    | some e =>
      (some e, (rebuild_map r ⟨m.items.dropLast, m.map⟩).1,
       (rebuild_map r ⟨m.items.dropLast, m.map⟩).2)
    | none => (none, m, r)

/-- A caller-visible mutating map operation; string-keyed operations intern
their key through `Symbol::new` as the map's callers do. -/
inductive MOp (V : Type) where
  | insertOp (s : String) (v : V)
  | insertAtOp (i : Nat) (s : String) (v : V)
  | removeOp (q : String)
  | removeAtOp (i : Nat)
  | popFrontOp
  | popBackOp
  | clearOp

/-- Combined execution state of one map against the global registry. -/
structure MSt (V : Type) where
  reg : Registry
  m : SymbolMap V

/-- One map operation; popped pairs are handed to the caller, which drops
them; a panicking positional call ends the execution (no new state). -/
def MSt.step {V : Type} (st : MSt V) : MOp V → MSt V
  | .insertOp s v =>
    ⟨(SymbolMap.insert (Symbol.new st.reg s).2 st.m (Symbol.new st.reg s).1 v).2.2,
     (SymbolMap.insert (Symbol.new st.reg s).2 st.m (Symbol.new st.reg s).1 v).2.1⟩
  | .insertAtOp i s v =>
    match SymbolMap.insert_at (Symbol.new st.reg s).2 st.m i (Symbol.new st.reg s).1 v with
    | some res => ⟨res.2.2, res.2.1⟩
    | none => st
  | .removeOp q =>
    ⟨(SymbolMap.remove st.reg st.m q).2.2, (SymbolMap.remove st.reg st.m q).2.1⟩
  | .removeAtOp i =>
    match SymbolMap.remove_at st.reg st.m i with
    | some res => ⟨res.2.2, res.2.1⟩
    | none => st
  | .popFrontOp =>
    match (SymbolMap.pop_front st.reg st.m).1 with
    | some e => ⟨Symbol.drop (SymbolMap.pop_front st.reg st.m).2.2 e.1,
                 (SymbolMap.pop_front st.reg st.m).2.1⟩
    | none => ⟨(SymbolMap.pop_front st.reg st.m).2.2, (SymbolMap.pop_front st.reg st.m).2.1⟩
  | .popBackOp =>
    match (SymbolMap.pop_back st.reg st.m).1 with
    | some e => ⟨Symbol.drop (SymbolMap.pop_back st.reg st.m).2.2 e.1,
                 (SymbolMap.pop_back st.reg st.m).2.1⟩
    | none => ⟨(SymbolMap.pop_back st.reg st.m).2.2, (SymbolMap.pop_back st.reg st.m).2.1⟩
  | .clearOp =>
    ⟨(SymbolMap.clear st.reg st.m).2, (SymbolMap.clear st.reg st.m).1⟩

def MSt.apply {V : Type} (st : MSt V) (ops : List (MOp V)) : MSt V :=
  ops.foldl MSt.step st

/-- The expected index contents after a full rebuild: every key paired with
its position, in order, starting at `i0`. -/
def enumFrom {V : Type} (i0 : Nat) : List (Symbol × V) → List (Symbol × Nat)
  | [] => []
  | p :: rest => (p.1, i0) :: enumFrom (i0 + 1) rest

/-- Index soundness: every recorded position is in bounds and holds the
recorded key. -/
def IdxSound {V : Type} (idx : List (Symbol × Nat)) (items : List (Symbol × V)) : Prop :=
  ∀ p ∈ idx, ∃ e, items[p.2]? = some e ∧ e.1.addr = p.1.addr ∧ e.1.content = p.1.content

/-- The map invariant, relative to an ambient multiset `L0` of handles the
caller holds besides the map's own:
* the registry invariant over the map's handles plus the ambient ones;
* item keys are pairwise distinct allocations;
* the index is present exactly above the small-map threshold;
* the index is sound and records every stored key's true position. -/
structure MapInv {V : Type} (r : Registry) (m : SymbolMap V) (L0 : List Symbol) : Prop where
  reg : RegInv r (m.holders ++ L0)
  keysDistinct : m.items.Pairwise (fun a b => a.1.addr ≠ b.1.addr)
  threshold : m.map.isNone ↔ m.items.length ≤ SMALL_MAP_SIZE
  sound : ∀ idx, m.map = some idx → IdxSound idx m.items
  complete : ∀ idx, m.map = some idx →
    ∀ i e, m.items[i]? = some e → idxGet idx e.1 = some i

/-- Well-formedness of a combined map execution state. -/
def MapWF {V : Type} (st : MSt V) : Prop := MapInv st.reg st.m []

/-! ### List helpers for the map proofs -/

lemma set_self {α : Type _} : ∀ {l : List α} {i : Nat} {a : α},
    l[i]? = some a → l.set i a = l := by
  intro l
  induction l with
  | nil => intro i a h; simp at h
  | cons x xs ih =>
    intro i a h
    cases i with
    | zero =>
      simp at h
      subst h
      rfl
    | succ n =>
      simp at h
      simp [List.set_cons_succ, ih (by simpa using h)]

lemma map_eraseIdx {α β : Type _} (f : α → β) :
    ∀ (l : List α) (i : Nat), (l.eraseIdx i).map f = (l.map f).eraseIdx i := by
  intro l
  induction l with
  | nil => intro i; simp [List.eraseIdx]
  | cons x xs ih =>
    intro i
    cases i with
    | zero => simp [List.eraseIdx]
    | succ n => simp [List.eraseIdx, ih n]

lemma mem_of_getElem? {α : Type _} {l : List α} {i : Nat} {a : α}
    (h : l[i]? = some a) : a ∈ l := by
  obtain ⟨hlt, hval⟩ := List.getElem?_eq_some.mp h
  exact hval ▸ List.getElem_mem hlt

/-- Multiset congruence for the registry invariant. -/
lemma RegInv.count_congr {r : Registry} {L L' : List Symbol} (hinv : RegInv r L)
    (hc : ∀ x, L.count x = L'.count x) : RegInv r L' :=
  hinv.perm (List.perm_iff_count.mpr hc)

lemma dropAll_inv {K : List Symbol} : ∀ {r : Registry} {L : List Symbol},
    RegInv r (K ++ L) → RegInv (dropAll r K) L := by
  induction K with
  | nil => intro r L h; exact h
  | cons k t ih =>
    intro r L h
    exact ih (RegInv.drop (by simpa using h))

lemma MapInv.dropAmbient {V : Type} {r : Registry} {m : SymbolMap V} {h : Symbol}
    {L0 : List Symbol} (hinv : MapInv r m (h :: L0)) :
    MapInv (Symbol.drop r h) m L0 := by
  refine ⟨?_, hinv.keysDistinct, hinv.threshold, hinv.sound, hinv.complete⟩
  apply RegInv.drop
  apply hinv.reg.count_congr
  intro x
  simp only [List.count_append, List.count_cons]
  omega

/-! ### The rebuilt index -/

lemma enumFrom_keys {V : Type} : ∀ (items : List (Symbol × V)) (i0 : Nat),
    (enumFrom i0 items).map (·.1) = items.map (·.1) := by
  intro items
  induction items with
  | nil => intro i0; rfl
  | cons p rest ih => intro i0; simp [enumFrom, ih]

lemma enumFrom_sound {V : Type} : ∀ (items : List (Symbol × V)) (i0 : Nat),
    ∀ p ∈ enumFrom i0 items, i0 ≤ p.2
      ∧ ∃ e, items[p.2 - i0]? = some e ∧ e.1.addr = p.1.addr ∧ e.1.content = p.1.content := by
  intro items
  induction items with
  | nil => intro i0 p hp; simp [enumFrom] at hp
  | cons q rest ih =>
    intro i0 p hp
    rcases List.mem_cons.mp hp with rfl | hp'
    · exact ⟨le_refl _, q, by simp, rfl, rfl⟩
    · obtain ⟨hle, e, he, h1, h2⟩ := ih (i0 + 1) p hp'
      refine ⟨by omega, e, ?_, h1, h2⟩
      have : p.2 - i0 = (p.2 - (i0 + 1)) + 1 := by omega
      rw [this]
      simpa using he

lemma idxGet_cons_eq {p : Symbol × Nat} {idx : List (Symbol × Nat)} {s : Symbol}
    (h : (p.1.addr == s.addr) = true) : idxGet (p :: idx) s = some p.2 := by
  unfold idxGet
  rw [List.find?_cons, h]
  rfl

lemma idxGet_cons_ne {p : Symbol × Nat} {idx : List (Symbol × Nat)} {s : Symbol}
    (h : (p.1.addr == s.addr) = false) : idxGet (p :: idx) s = idxGet idx s := by
  unfold idxGet
  rw [List.find?_cons, h]

lemma enumFrom_complete {V : Type} : ∀ (items : List (Symbol × V)),
    items.Pairwise (fun a b => a.1.addr ≠ b.1.addr) →
    ∀ (i0 i : Nat) (e : Symbol × V), items[i]? = some e →
      idxGet (enumFrom i0 items) e.1 = some (i0 + i) := by
  intro items
  induction items with
  | nil => intro _ i0 i e h; simp at h
  | cons q rest ih =>
    intro hdist i0 i e h
    rcases List.pairwise_cons.mp hdist with ⟨hq, hrest⟩
    cases i with
    | zero =>
      simp at h
      subst h
      show idxGet ((q.1, i0) :: enumFrom (i0 + 1) rest) q.1 = some (i0 + 0)
      rw [idxGet_cons_eq (by simp)]
      rfl
    | succ n =>
      simp at h
      have hmem : e ∈ rest := mem_of_getElem? (by simpa using h)
      have hne : q.1.addr ≠ e.1.addr := hq e hmem
      have hfalse : ((q.1.addr == e.1.addr) = false) := by simpa using hne
      show idxGet ((q.1, i0) :: enumFrom (i0 + 1) rest) e.1 = some (i0 + (n + 1))
      rw [idxGet_cons_ne hfalse]
      rw [show i0 + (n + 1) = (i0 + 1) + n from by omega]
      exact ih hrest (i0 + 1) n e (by simpa using h)

lemma buildIdx_fst {V : Type} : ∀ (items : List (Symbol × V)) (r : Registry) (i0 : Nat)
    (acc : List (Symbol × Nat)),
    (∀ q ∈ items, ∀ p ∈ acc, p.1.addr ≠ q.1.addr) →
    items.Pairwise (fun a b => a.1.addr ≠ b.1.addr) →
    (buildIdx r items i0 acc).1 = acc ++ enumFrom i0 items := by
  intro items
  induction items with
  | nil =>
    intro r i0 acc _ _
    simp [buildIdx, enumFrom]
  | cons p rest ih =>
    intro r i0 acc hd hp
    rcases List.pairwise_cons.mp hp with ⟨hph, hpt⟩
    have hany : (acc.any (fun q => q.1.addr == (Symbol.clone r p.1).1.addr)) = false := by
      rw [List.any_eq_false]
      intro x hx
      simpa [Symbol.clone] using hd p (List.mem_cons_self _ _) x hx
    show (buildIdx r (p :: rest) i0 acc).1 = _
    unfold buildIdx
    rw [hany]
    simp only [Bool.false_eq_true, if_false]
    have hd' : ∀ q ∈ rest, ∀ x ∈ acc ++ [((Symbol.clone r p.1).1, i0)], x.1.addr ≠ q.1.addr := by
      intro q hq x hx
      rcases List.mem_append.mp hx with hx' | hx'
      · exact hd q (List.mem_cons_of_mem _ hq) x hx'
      · simp at hx'
        subst hx'
        simpa [Symbol.clone] using hph q hq
    rw [ih (Symbol.clone r p.1).2 (i0 + 1) _ hd' hpt]
    show acc ++ [(p.1, i0)] ++ enumFrom (i0 + 1) rest = acc ++ enumFrom i0 (p :: rest)
    simp [enumFrom, List.append_assoc]

lemma buildIdx_reg {V : Type} : ∀ (items : List (Symbol × V)) (r : Registry) (i0 : Nat)
    (acc : List (Symbol × Nat)) (L : List Symbol),
    RegInv r (items.map (·.1) ++ L) →
    (∀ q ∈ items, ∀ p ∈ acc, p.1.addr ≠ q.1.addr) →
    items.Pairwise (fun a b => a.1.addr ≠ b.1.addr) →
    RegInv (buildIdx r items i0 acc).2 (items.map (·.1) ++ (items.map (·.1) ++ L)) := by
  intro items
  induction items with
  | nil =>
    intro r i0 acc L hreg _ _
    simpa [buildIdx] using hreg
  | cons p rest ih =>
    intro r i0 acc L hreg hd hp
    rcases List.pairwise_cons.mp hp with ⟨hph, hpt⟩
    have hany : (acc.any (fun q => q.1.addr == (Symbol.clone r p.1).1.addr)) = false := by
      rw [List.any_eq_false]
      intro x hx
      simpa [Symbol.clone] using hd p (List.mem_cons_self _ _) x hx
    have hmem : p.1 ∈ (p :: rest).map (fun e => e.1) ++ L := by
      simp
    have hclone : RegInv (Symbol.clone r p.1).2 (p.1 :: ((p :: rest).map (fun e => e.1) ++ L)) :=
      RegInv.clone hreg hmem
    have hreg' : RegInv (Symbol.clone r p.1).2
        (rest.map (fun e => e.1) ++ (p.1 :: p.1 :: L)) := by
      apply hclone.count_congr
      intro x
      simp only [List.map_cons, List.count_append, List.count_cons]
      omega
    have hd' : ∀ q ∈ rest, ∀ x ∈ acc ++ [((Symbol.clone r p.1).1, i0)], x.1.addr ≠ q.1.addr := by
      intro q hq x hx
      rcases List.mem_append.mp hx with hx' | hx'
      · exact hd q (List.mem_cons_of_mem _ hq) x hx'
      · simp at hx'
        subst hx'
        simpa [Symbol.clone] using hph q hq
    have hrec := ih (Symbol.clone r p.1).2 (i0 + 1) (acc ++ [((Symbol.clone r p.1).1, i0)])
      (p.1 :: p.1 :: L) hreg' hd' hpt
    show RegInv (buildIdx r (p :: rest) i0 acc).2 _
    unfold buildIdx
    rw [hany]
    simp only [Bool.false_eq_true, if_false]
    apply hrec.count_congr
    intro x
    simp only [List.map_cons, List.count_append, List.count_cons]
    omega

@[simp] lemma idxSyms_mk_some {V : Type} (items : List (Symbol × V))
    (idx : List (Symbol × Nat)) :
    (⟨items, some idx⟩ : SymbolMap V).idxSyms = idx.map (fun p => p.1) := rfl

@[simp] lemma idxSyms_mk_none {V : Type} (items : List (Symbol × V)) :
    (⟨items, none⟩ : SymbolMap V).idxSyms = [] := rfl

lemma holders_mk {V : Type} (items : List (Symbol × V)) (mp : Option (List (Symbol × Nat))) :
    (⟨items, mp⟩ : SymbolMap V).holders
      = items.map (fun e => e.1) ++ (⟨items, mp⟩ : SymbolMap V).idxSyms := rfl

lemma rebuild_spec {V : Type} {r : Registry} {m : SymbolMap V} {L : List Symbol}
    (hreg : RegInv r (m.holders ++ L))
    (hdist : m.items.Pairwise (fun a b => a.1.addr ≠ b.1.addr)) :
    (rebuild_map r m).1.items = m.items
    ∧ ((rebuild_map r m).1.map.isNone ↔ m.items.length ≤ SMALL_MAP_SIZE)
    ∧ (∀ idx, (rebuild_map r m).1.map = some idx → idx = enumFrom 0 m.items)
    ∧ RegInv (rebuild_map r m).2 ((rebuild_map r m).1.holders ++ L) := by
  have hsplit : RegInv r (m.idxSyms ++ (m.items.map (fun e => e.1) ++ L)) := by
    apply hreg.count_congr
    intro x
    simp only [SymbolMap.holders, List.count_append]
    omega
  have hdropped : RegInv (dropAll r m.idxSyms) (m.items.map (fun e => e.1) ++ L) :=
    dropAll_inv hsplit
  unfold rebuild_map
  by_cases hlen : m.items.length ≤ SMALL_MAP_SIZE
  · rw [if_pos hlen]
    refine ⟨rfl, by simpa using hlen, by simp, ?_⟩
    apply hdropped.count_congr
    intro x
    simp only [holders_mk, idxSyms_mk_none, List.count_append, List.count_nil]
    omega
  · rw [if_neg hlen]
    have hfst := buildIdx_fst m.items (dropAll r m.idxSyms) 0 [] (by simp) hdist
    have hregb := buildIdx_reg m.items (dropAll r m.idxSyms) 0 [] L hdropped (by simp) hdist
    have hkeys : ((buildIdx (dropAll r m.idxSyms) m.items 0 []).1).map (fun p => p.1)
        = m.items.map (fun e => e.1) := by
      rw [hfst]
      simpa using enumFrom_keys m.items 0
    refine ⟨rfl, by simpa using hlen, ?_, ?_⟩
    · intro idx hidx
      simp only [Option.some.injEq] at hidx
      rw [← hidx, hfst]
      simp
    · apply hregb.count_congr
      intro x
      simp only [holders_mk, idxSyms_mk_some, List.count_append]
      rw [hkeys]
      omega

lemma holders_def {V : Type} (m : SymbolMap V) :
    m.holders = m.items.map (fun e => e.1) ++ m.idxSyms := rfl

lemma keysDistinct_iff {V : Type} (items : List (Symbol × V)) :
    items.Pairwise (fun a b => a.1.addr ≠ b.1.addr)
      ↔ (items.map (fun e => e.1)).Pairwise (fun a b => a.addr ≠ b.addr) := by
  rw [List.pairwise_map]

lemma eq_dropLast_append {α : Type _} : ∀ {l : List α} {a : α},
    l.getLast? = some a → l = l.dropLast ++ [a] := by
  intro l
  induction l with
  | nil => intro a h; cases h
  | cons x xs ih =>
    intro a h
    cases xs with
    | nil =>
      simp at h
      subst h
      rfl
    | cons y ys =>
      rw [List.getLast?_cons_cons] at h
      have := ih h
      calc x :: y :: ys = x :: ((y :: ys).dropLast ++ [a]) := by rw [← this]
        _ = (x :: y :: ys).dropLast ++ [a] := by simp

lemma find?_append_some {α : Type _} {l1 l2 : List α} {p : α → Bool} {a : α}
    (h : l1.find? p = some a) : (l1 ++ l2).find? p = some a := by
  induction l1 with
  | nil => cases h
  | cons x xs ih =>
    rw [List.cons_append]
    by_cases hx : p x
    · rw [List.find?_cons_of_pos _ hx] at h ⊢
      exact h
    · rw [List.find?_cons_of_neg _ hx] at h ⊢
      exact ih h

lemma find?_append_none {α : Type _} {l1 l2 : List α} {p : α → Bool}
    (h : l1.find? p = none) : (l1 ++ l2).find? p = l2.find? p := by
  induction l1 with
  | nil => rfl
  | cons x xs ih =>
    rw [List.cons_append]
    by_cases hx : p x
    · rw [List.find?_cons_of_pos _ hx] at h
      cases h
    · rw [List.find?_cons_of_neg _ hx] at h ⊢
      exact ih h

lemma idxGet_some {idx : List (Symbol × Nat)} {s : Symbol} {i : Nat}
    (h : idxGet idx s = some i) : ∃ p ∈ idx, p.1.addr = s.addr ∧ p.2 = i := by
  unfold idxGet at h
  cases hf : idx.find? (fun p => p.1.addr == s.addr) with
  | none => rw [hf] at h; cases h
  | some p =>
    rw [hf] at h
    simp at h
    refine ⟨p, List.mem_of_find?_eq_some hf, ?_, h⟩
    simpa using List.find?_some hf

lemma idxGet_none_iff {idx : List (Symbol × Nat)} {s : Symbol} :
    idxGet idx s = none ↔ ∀ p ∈ idx, p.1.addr ≠ s.addr := by
  unfold idxGet
  simp [List.find?_eq_none]

lemma idxGet_congr_addr {idx : List (Symbol × Nat)} {s t : Symbol}
    (h : s.addr = t.addr) : idxGet idx s = idxGet idx t := by
  unfold idxGet
  rw [h]

lemma enum_sound0 {V : Type} (items : List (Symbol × V)) :
    IdxSound (enumFrom 0 items) items := by
  intro p hp
  obtain ⟨_, e, he, h1, h2⟩ := enumFrom_sound items 0 p hp
  exact ⟨e, by simpa using he, h1, h2⟩

lemma enum_complete0 {V : Type} {items : List (Symbol × V)}
    (hdist : items.Pairwise (fun a b => a.1.addr ≠ b.1.addr)) :
    ∀ i e, items[i]? = some e → idxGet (enumFrom 0 items) e.1 = some i := by
  intro i e h
  simpa using enumFrom_complete items hdist 0 i e h

/-- A full rebuild restores the whole map invariant. -/
lemma rebuild_inv {V : Type} {r : Registry} {m : SymbolMap V} {L : List Symbol}
    (hreg : RegInv r (m.holders ++ L))
    (hdist : m.items.Pairwise (fun a b => a.1.addr ≠ b.1.addr)) :
    MapInv (rebuild_map r m).2 (rebuild_map r m).1 L
    ∧ (rebuild_map r m).1.items = m.items := by
  obtain ⟨hitems, hthr, hidx, hreg'⟩ := rebuild_spec hreg hdist
  refine ⟨⟨hreg', ?_, ?_, ?_, ?_⟩, hitems⟩
  · rw [hitems]
    exact hdist
  · rw [hitems]
    exact hthr
  · intro idx hx
    rw [hidx idx hx, hitems]
    exact enum_sound0 m.items
  · intro idx hx i e he
    rw [hidx idx hx]
    rw [hitems] at he
    exact enum_complete0 hdist i e he

/-- Interning a fresh handle leaves the map invariant intact, with the new
handle ambient. -/
lemma MapInv.intern {V : Type} {r : Registry} {m : SymbolMap V} {L0 : List Symbol}
    (hinv : MapInv r m L0) (s : String) :
    MapInv (Symbol.new r s).2 m ((Symbol.new r s).1 :: L0) := by
  refine ⟨?_, hinv.keysDistinct, hinv.threshold, hinv.sound, hinv.complete⟩
  have h := RegInv.new hinv.reg s
  apply h.count_congr
  intro x
  simp only [List.count_append, List.count_cons]
  omega

lemma clear_spec {V : Type} {r : Registry} {m : SymbolMap V} {L0 : List Symbol}
    (hinv : MapInv r m L0) :
    MapInv (SymbolMap.clear r m).2 (SymbolMap.clear r m).1 L0 := by
  unfold SymbolMap.clear
  have h1 : RegInv r (m.items.map (fun e => e.1) ++ (m.idxSyms ++ L0)) := by
    apply hinv.reg.count_congr
    intro x
    simp only [holders_def, List.count_append]
    omega
  have h3 := dropAll_inv (dropAll_inv h1)
  refine ⟨?_, by simp, by simp [SMALL_MAP_SIZE], ?_, ?_⟩
  · apply h3.count_congr
    intro x
    simp [holders_def]
  · intro idx h
    cases h
  · intro idx h
    cases h

lemma pop_back_eq_pop_front {V : Type} (r : Registry) (m : SymbolMap V) :
    SymbolMap.pop_back r m = SymbolMap.pop_front r m := by
  unfold SymbolMap.pop_back SymbolMap.pop_front
  cases hl : m.items.getLast? with
  | none =>
    have hnil : m.items = [] := by simpa using hl
    rw [if_pos (by simp [hnil])]
  | some e =>
    have hne : m.items ≠ [] := by
      intro hh
      rw [hh] at hl
      cases hl
    rw [if_neg (by simpa using hne)]

lemma pop_front_none {V : Type} {r : Registry} {m : SymbolMap V}
    (hl : m.items.getLast? = none) : SymbolMap.pop_front r m = (none, m, r) := by
  unfold SymbolMap.pop_front
  rw [hl]

lemma pop_front_some {V : Type} {r : Registry} {m : SymbolMap V} {e : Symbol × V}
    (hl : m.items.getLast? = some e) :
    SymbolMap.pop_front r m
      = (some e, (rebuild_map r ⟨m.items.dropLast, m.map⟩).1,
         (rebuild_map r ⟨m.items.dropLast, m.map⟩).2) := by
  unfold SymbolMap.pop_front
  rw [hl]

lemma pop_front_spec {V : Type} {r : Registry} {m : SymbolMap V} {L0 : List Symbol}
    (hinv : MapInv r m L0) :
    (SymbolMap.pop_front r m).1 = m.items.getLast?
    ∧ (∀ e, (SymbolMap.pop_front r m).1 = some e →
        MapInv (SymbolMap.pop_front r m).2.2 (SymbolMap.pop_front r m).2.1 (e.1 :: L0)
        ∧ (SymbolMap.pop_front r m).2.1.items = m.items.dropLast)
    ∧ ((SymbolMap.pop_front r m).1 = none →
        (SymbolMap.pop_front r m).2.1 = m ∧ (SymbolMap.pop_front r m).2.2 = r) := by
  cases hl : m.items.getLast? with
  | none =>
    rw [pop_front_none hl]
    refine ⟨rfl, ?_, ?_⟩
    · intro e he
      cases he
    · intro h2
      exact ⟨rfl, rfl⟩
  | some e0 =>
    rw [pop_front_some hl]
    have hsplit : m.items = m.items.dropLast ++ [e0] := eq_dropLast_append hl
    have hdist' : (m.items.dropLast).Pairwise (fun a b => a.1.addr ≠ b.1.addr) :=
      List.Pairwise.sublist (List.dropLast_sublist m.items) hinv.keysDistinct
    have hreg' : RegInv r ((⟨m.items.dropLast, m.map⟩ : SymbolMap V).holders ++ (e0.1 :: L0)) := by
      apply hinv.reg.count_congr
      intro x
      simp only [holders_def, List.count_append, List.count_cons]
      have : m.items.map (fun e => e.1) = (m.items.dropLast).map (fun e => e.1) ++ [e0.1] := by
        calc m.items.map (fun e => e.1)
            = (m.items.dropLast ++ [e0]).map (fun e => e.1) := by rw [← hsplit]
          _ = (m.items.dropLast).map (fun e => e.1) ++ [e0.1] := by simp
      rw [this]
      simp only [List.count_append, List.count_cons, List.count_singleton, List.count_nil]
      rw [show ((⟨m.items.dropLast, m.map⟩ : SymbolMap V)).idxSyms = m.idxSyms from rfl]
      omega
    obtain ⟨hminv, hitems⟩ := rebuild_inv hreg' hdist'
    refine ⟨rfl, ?_, ?_⟩
    · intro e he
      simp only [Option.some.injEq] at he
      subst he
      exact ⟨hminv, hitems⟩
    · intro hnone
      cases hnone

lemma remove_at_none {V : Type} {r : Registry} {m : SymbolMap V} {i : Nat}
    (h : m.items[i]? = none) : SymbolMap.remove_at r m i = none := by
  unfold SymbolMap.remove_at
  rw [h]

lemma remove_at_some {V : Type} {r : Registry} {m : SymbolMap V} {i : Nat} {e : Symbol × V}
    (h : m.items[i]? = some e) :
    SymbolMap.remove_at r m i
      = some (e.2, (rebuild_map r ⟨m.items.eraseIdx i, m.map⟩).1,
          Symbol.drop (rebuild_map r ⟨m.items.eraseIdx i, m.map⟩).2 e.1) := by
  unfold SymbolMap.remove_at
  rw [h]

lemma erase_reg {V : Type} {r : Registry} {m : SymbolMap V} {L0 : List Symbol} {i : Nat}
    {e : Symbol × V} (hinv : MapInv r m L0) (hi : m.items[i]? = some e) :
    RegInv r ((⟨m.items.eraseIdx i, m.map⟩ : SymbolMap V).holders ++ (e.1 :: L0)) := by
  have hKi : (m.items.map (fun x => x.1))[i]? = some e.1 := by
    rw [List.getElem?_map, hi]
    rfl
  have hperm := perm_cons_eraseIdx hKi
  apply hinv.reg.count_congr
  intro x
  have hc := hperm.count_eq x
  simp only [List.count_cons] at hc
  simp only [holders_def, List.count_append, List.count_cons]
  rw [show ((⟨m.items.eraseIdx i, m.map⟩ : SymbolMap V)).idxSyms = m.idxSyms from rfl]
  rw [map_eraseIdx]
  omega

lemma remove_at_spec {V : Type} {r : Registry} {m : SymbolMap V} {L0 : List Symbol}
    (hinv : MapInv r m L0) (i : Nat) :
    ∀ res, SymbolMap.remove_at r m i = some res → MapInv res.2.2 res.2.1 L0 := by
  intro res hres
  cases hi : m.items[i]? with
  | none =>
    rw [remove_at_none hi] at hres
    cases hres
  | some e =>
    rw [remove_at_some hi] at hres
    have hdist' : (m.items.eraseIdx i).Pairwise (fun a b => a.1.addr ≠ b.1.addr) :=
      List.Pairwise.sublist (List.eraseIdx_sublist m.items i) hinv.keysDistinct
    obtain ⟨hminv, _⟩ := rebuild_inv (erase_reg hinv hi) hdist'
    injection hres with h2
    subst h2
    exact hminv.dropAmbient

lemma findIdx?_some_elem {α : Type _} {p : α → Bool} : ∀ {l : List α} {i : Nat},
    l.findIdx? p = some i → ∃ a, l[i]? = some a ∧ p a = true := by
  intro l
  induction l with
  | nil => intro i h; cases h
  | cons x xs ih =>
    intro i h
    rw [List.findIdx?_cons, List.findIdx?_succ] at h
    by_cases hx : p x
    · rw [if_pos hx] at h
      injection h with h0
      subst h0
      exact ⟨x, by simp, hx⟩
    · rw [if_neg hx] at h
      obtain ⟨j, hj, hji⟩ := Option.map_eq_some'.mp h
      subst hji
      obtain ⟨a, ha, hpa⟩ := ih hj
      exact ⟨a, by simpa using ha, hpa⟩

lemma content_ne_of_not_found {r : Registry} {L : List Symbol} (hinv : RegInv r L)
    {p : Symbol} (hm : p ∈ L) {q : String} (hf : r.find? q = none) : p.content ≠ q := by
  intro hc
  obtain ⟨e, he, _, hce⟩ := hinv.liveIn p hm
  exact (find?_none_iff.mp hf) e he (hce.trans hc)

lemma mem_live_of_item {V : Type} {m : SymbolMap V} {p : Symbol × V} (hp : p ∈ m.items)
    (L0 : List Symbol) : p.1 ∈ m.holders ++ L0 := by
  apply List.mem_append_left
  rw [holders_def]
  exact List.mem_append_left _ (List.mem_map_of_mem _ hp)

lemma remove_spec {V : Type} {r : Registry} {m : SymbolMap V} {L0 : List Symbol}
    (hinv : MapInv r m L0) (q : String) :
    MapInv (SymbolMap.remove r m q).2.2 (SymbolMap.remove r m q).2.1 L0
    ∧ ∀ p ∈ (SymbolMap.remove r m q).2.1.items, p.1.content ≠ q := by
  cases hg : (Symbol.get r q).1 with
  | none =>
    obtain ⟨hr2, hfq⟩ := RegInv.get_none hinv.reg hg
    have hrm : SymbolMap.remove r m q = (none, m, (Symbol.get r q).2) := by
      unfold SymbolMap.remove
      rw [hg]
    rw [hrm, hr2]
    refine ⟨hinv, ?_⟩
    intro p hp
    exact content_ne_of_not_found hinv.reg (mem_live_of_item hp L0) hfq
  | some s =>
    obtain ⟨hreg1, hsc⟩ := RegInv.get_some hinv.reg hg
    have hdropid := get_drop_id hinv.reg hg
    have haddr_of_content : ∀ p : Symbol × V, p ∈ m.items → p.1.content = q →
        p.1.addr = s.addr := by
      intro p hp hc
      have hps : p.1 ∈ s :: (m.holders ++ L0) :=
        List.mem_cons_of_mem _ (mem_live_of_item hp L0)
      exact (hreg1.content_iff_addr hps (List.mem_cons_self _ _)).mp (by rw [hc, hsc])
    cases hm : m.map with
    | some idx =>
      cases hig : idxGet idx s with
      | some i =>
        obtain ⟨pidx, hpidx, hpaddr, hpi⟩ := idxGet_some hig
        obtain ⟨e0, he0, he0a, _⟩ := hinv.sound idx hm pidx hpidx
        rw [hpi] at he0
        cases hi : m.items[i]? with
        | none =>
          rw [hi] at he0
          cases he0
        | some e =>
          rw [hi] at he0
          injection he0 with he0e
          subst he0e
          have headdr : e.1.addr = s.addr := by rw [he0a, hpaddr]
          have hrm : SymbolMap.remove r m q
              = (some e.2,
                 (rebuild_map (Symbol.get r q).2 ⟨m.items.eraseIdx i, m.map⟩).1,
                 Symbol.drop (Symbol.drop
                   (rebuild_map (Symbol.get r q).2 ⟨m.items.eraseIdx i, m.map⟩).2 e.1) s) := by
            unfold SymbolMap.remove
            rw [hg]
            simp only [hm, hig, hi]
          have hdist' : (m.items.eraseIdx i).Pairwise (fun a b => a.1.addr ≠ b.1.addr) :=
            List.Pairwise.sublist (List.eraseIdx_sublist m.items i) hinv.keysDistinct
          have hKi : (m.items.map (fun x => x.1))[i]? = some e.1 := by
            rw [List.getElem?_map, hi]
            rfl
          have hperm := perm_cons_eraseIdx hKi
          have hreg' : RegInv (Symbol.get r q).2
              ((⟨m.items.eraseIdx i, m.map⟩ : SymbolMap V).holders ++ (e.1 :: s :: L0)) := by
            apply hreg1.count_congr
            intro x
            have hc := hperm.count_eq x
            simp only [List.count_cons] at hc
            simp only [holders_def, List.count_append, List.count_cons]
            rw [show ((⟨m.items.eraseIdx i, m.map⟩ : SymbolMap V)).idxSyms = m.idxSyms from rfl]
            rw [map_eraseIdx]
            omega
          obtain ⟨hminv, hitems'⟩ := rebuild_inv hreg' hdist'
          rw [hrm]
          refine ⟨hminv.dropAmbient.dropAmbient, ?_⟩
          rw [show ((rebuild_map (Symbol.get r q).2
              ⟨m.items.eraseIdx i, m.map⟩).1, Symbol.drop (Symbol.drop
                (rebuild_map (Symbol.get r q).2 ⟨m.items.eraseIdx i, m.map⟩).2 e.1)
                  s).1.items = m.items.eraseIdx i from hitems']
          intro p hp hpc
          have hpm : p ∈ m.items := (List.eraseIdx_sublist m.items i).subset hp
          have hpa := haddr_of_content p hpm hpc
          have hpe : p = e := eq_of_pairwise_key (fun pr => pr.1.addr) hinv.keysDistinct hpm
            (mem_of_getElem? hi) (by show p.1.addr = e.1.addr; rw [hpa, headdr])
          subst hpe
          have hperm2 : m.items.Perm (p :: m.items.eraseIdx i) := perm_cons_eraseIdx hi
          have hpw : (p :: m.items.eraseIdx i).Pairwise (fun a b => a.1.addr ≠ b.1.addr) :=
            (List.Perm.pairwise_iff (fun h => h.symm) hperm2).mp hinv.keysDistinct
          exact (List.pairwise_cons.mp hpw).1 p hp rfl
      | none =>
        have hrm : SymbolMap.remove r m q = (none, m, Symbol.drop (Symbol.get r q).2 s) := by
          unfold SymbolMap.remove
          rw [hg]
          simp only [hm, hig]
        rw [hrm, hdropid]
        refine ⟨hinv, ?_⟩
        intro p hp hpc
        have hpa := haddr_of_content p hp hpc
        obtain ⟨j, hj⟩ := List.getElem?_of_mem hp
        have hcomp := hinv.complete idx hm j p hj
        rw [idxGet_congr_addr hpa] at hcomp
        rw [hig] at hcomp
        cases hcomp
    | none =>
      cases hfi : m.items.findIdx? (fun e => s.addr == e.1.addr) with
      | some i =>
        obtain ⟨e, hi, hpe⟩ := findIdx?_some_elem hfi
        have headdr : e.1.addr = s.addr := by
          have h := hpe
          simp only [beq_iff_eq] at h
          exact h.symm
        have hrm : SymbolMap.remove r m q
            = (some e.2, ⟨m.items.eraseIdx i, none⟩,
               Symbol.drop (Symbol.drop (Symbol.get r q).2 e.1) s) := by
          unfold SymbolMap.remove
          rw [hg]
          simp only [hm, hfi, hi]
        have hdist' : (m.items.eraseIdx i).Pairwise (fun a b => a.1.addr ≠ b.1.addr) :=
          List.Pairwise.sublist (List.eraseIdx_sublist m.items i) hinv.keysDistinct
        have hKi : (m.items.map (fun x => x.1))[i]? = some e.1 := by
          rw [List.getElem?_map, hi]
          rfl
        have hperm := perm_cons_eraseIdx hKi
        have hidxe : m.idxSyms = [] := by
          unfold SymbolMap.idxSyms
          rw [hm]
        have hreg' : RegInv (Symbol.get r q).2
            (e.1 :: s :: ((⟨m.items.eraseIdx i, none⟩ : SymbolMap V).holders ++ L0)) := by
          apply hreg1.count_congr
          intro x
          have hc := hperm.count_eq x
          simp only [List.count_cons] at hc
          simp only [holders_mk, idxSyms_mk_none, holders_def, hidxe, List.count_append,
            List.count_cons, List.count_nil]
          rw [map_eraseIdx]
          omega
        have hlen : (m.items.eraseIdx i).length ≤ SMALL_MAP_SIZE := by
          have h1 := (List.eraseIdx_sublist m.items i).length_le
          have h2 : m.items.length ≤ SMALL_MAP_SIZE := by
            have := hinv.threshold
            rw [hm] at this
            simpa using this
          omega
        rw [hrm]
        constructor
        · refine ⟨?_, hdist', by simpa using hlen, ?_, ?_⟩
          · exact RegInv.drop (RegInv.drop hreg')
          · intro idx2 h2
            cases h2
          · intro idx2 h2
            cases h2
        · intro p hp hpc
          have hpm : p ∈ m.items := (List.eraseIdx_sublist m.items i).subset hp
          have hpa := haddr_of_content p hpm hpc
          have hpe2 : p = e := eq_of_pairwise_key (fun pr => pr.1.addr) hinv.keysDistinct hpm
            (mem_of_getElem? hi) (by show p.1.addr = e.1.addr; rw [hpa, headdr])
          subst hpe2
          have hperm2 : m.items.Perm (p :: m.items.eraseIdx i) := perm_cons_eraseIdx hi
          have hpw : (p :: m.items.eraseIdx i).Pairwise (fun a b => a.1.addr ≠ b.1.addr) :=
            (List.Perm.pairwise_iff (fun h => h.symm) hperm2).mp hinv.keysDistinct
          exact (List.pairwise_cons.mp hpw).1 p hp rfl
      | none =>
        have hrm : SymbolMap.remove r m q = (none, m, Symbol.drop (Symbol.get r q).2 s) := by
          unfold SymbolMap.remove
          rw [hg]
          simp only [hm, hfi]
        rw [hrm, hdropid]
        refine ⟨hinv, ?_⟩
        intro p hp hpc
        have hpa := haddr_of_content p hp hpc
        have := List.findIdx?_eq_none_iff.mp hfi p hp
        rw [hpa] at this
        simp at this

lemma idxGet_append_some {idx idx2 : List (Symbol × Nat)} {s : Symbol} {j : Nat}
    (h : idxGet idx s = some j) : idxGet (idx ++ idx2) s = some j := by
  unfold idxGet at h ⊢
  obtain ⟨pp, hpp, hpp2⟩ := Option.map_eq_some'.mp h
  rw [find?_append_some hpp]
  simpa using hpp2

lemma idxGet_append_none {idx idx2 : List (Symbol × Nat)} {s : Symbol}
    (h : idxGet idx s = none) : idxGet (idx ++ idx2) s = idxGet idx2 s := by
  unfold idxGet at h ⊢
  rw [find?_append_none (Option.map_eq_none'.mp h)]

lemma insert_idx_occupied {V : Type} {r : Registry} {m : SymbolMap V} {k : Symbol}
    {idx : List (Symbol × Nat)} {i : Nat} {e : Symbol × V} {v : V}
    (hm : m.map = some idx) (hig : idxGet idx k = some i) (hi : m.items[i]? = some e) :
    SymbolMap.insert r m k v
      = (some e.2, ⟨m.items.set i (e.1, v), m.map⟩,
         Symbol.drop (Symbol.drop (r.bumpAt k.addr) k) k) := by
  unfold SymbolMap.insert
  simp only [hm]
  rw [show idxGet idx (Symbol.clone r k).1 = some i from hig]
  simp only [hi, hm]
  rfl

lemma insert_idx_vacant {V : Type} {r : Registry} {m : SymbolMap V} {k : Symbol}
    {idx : List (Symbol × Nat)} {v : V}
    (hm : m.map = some idx) (hig : idxGet idx k = none) :
    SymbolMap.insert r m k v
      = (none, ⟨m.items ++ [(k, v)], some (idx ++ [(k, m.items.length)])⟩,
         r.bumpAt k.addr) := by
  unfold SymbolMap.insert
  simp only [hm]
  rw [show idxGet idx (Symbol.clone r k).1 = none from hig]
  rfl

lemma insert_scan_hit {V : Type} {r : Registry} {m : SymbolMap V} {k : Symbol}
    {i : Nat} {e : Symbol × V} {v : V}
    (hm : m.map = none) (hfi : m.items.findIdx? (fun e => e.1.addr == k.addr) = some i)
    (hi : m.items[i]? = some e) :
    SymbolMap.insert r m k v
      = (some e.2, ⟨m.items.set i (e.1, v), none⟩, Symbol.drop r k) := by
  unfold SymbolMap.insert
  simp only [hm, hfi, hi]

lemma insert_scan_miss {V : Type} {r : Registry} {m : SymbolMap V} {k : Symbol} {v : V}
    (hm : m.map = none) (hfi : m.items.findIdx? (fun e => e.1.addr == k.addr) = none) :
    SymbolMap.insert r m k v
      = (none, (rebuild_map r ⟨m.items ++ [(k, v)], none⟩).1,
         (rebuild_map r ⟨m.items ++ [(k, v)], none⟩).2) := by
  unfold SymbolMap.insert
  simp only [hm, hfi]

/-- The value-swap case of `insert` preserves the invariant (the key slot
and position structure are untouched). -/
lemma insert_swap_inv {V : Type} {r1 : Registry} {m : SymbolMap V} {L0 : List Symbol}
    {i : Nat} {e : Symbol × V} (v : V)
    (hi : m.items[i]? = some e)
    (hreg : RegInv r1 ((⟨m.items.set i (e.1, v), m.map⟩ : SymbolMap V).holders ++ L0))
    (hdist : m.items.Pairwise (fun a b => a.1.addr ≠ b.1.addr))
    (hthr : m.map.isNone ↔ m.items.length ≤ SMALL_MAP_SIZE)
    (hsound : ∀ idx, m.map = some idx → IdxSound idx m.items)
    (hcomplete : ∀ idx, m.map = some idx →
      ∀ j e2, m.items[j]? = some e2 → idxGet idx e2.1 = some j) :
    MapInv r1 (⟨m.items.set i (e.1, v), m.map⟩ : SymbolMap V) L0 := by
  have hilt : i < m.items.length := (List.getElem?_eq_some.mp hi).1
  have hkeys : (m.items.set i (e.1, v)).map (fun x => x.1) = m.items.map (fun x => x.1) := by
    rw [List.map_set]
    exact set_self (by rw [List.getElem?_map, hi]; rfl)
  refine ⟨hreg, ?_, ?_, ?_, ?_⟩
  · rw [keysDistinct_iff]
    show ((m.items.set i (e.1, v)).map (fun x => x.1)).Pairwise _
    rw [hkeys]
    exact (keysDistinct_iff m.items).mp hdist
  · show m.map.isNone ↔ (m.items.set i (e.1, v)).length ≤ SMALL_MAP_SIZE
    rw [List.length_set]
    exact hthr
  · intro idx2 h2 p hp
    obtain ⟨e2, he2, h2a, h2c⟩ := hsound idx2 h2 p hp
    by_cases hpi2 : p.2 = i
    · subst hpi2
      rw [hi] at he2
      injection he2 with he2e
      subst he2e
      exact ⟨(e.1, v), by rw [List.getElem?_set_eq hilt], h2a, h2c⟩
    · exact ⟨e2, by rw [List.getElem?_set_ne (fun hh => hpi2 hh.symm)]; exact he2, h2a, h2c⟩
  · intro idx2 h2 j e2 hj
    by_cases hji : j = i
    · subst hji
      rw [List.getElem?_set_eq hilt] at hj
      injection hj with hje
      subst hje
      exact hcomplete idx2 h2 j e hi
    · rw [List.getElem?_set_ne (fun hh => hji hh.symm)] at hj
      exact hcomplete idx2 h2 j e2 hj

lemma insert_spec {V : Type} {r : Registry} {m : SymbolMap V} {k : Symbol} {L0 : List Symbol}
    (hinv : MapInv r m (k :: L0)) (v : V) :
    MapInv (SymbolMap.insert r m k v).2.2 (SymbolMap.insert r m k v).2.1 L0 := by
  have hkmem : k ∈ m.holders ++ (k :: L0) := List.mem_append_right _ (List.mem_cons_self _ _)
  have hkcons : RegInv r (k :: (m.holders ++ L0)) := by
    apply hinv.reg.count_congr
    intro x
    simp only [List.count_append, List.count_cons]
    omega
  cases hm : m.map with
  | some idx =>
    cases hig : idxGet idx k with
    | some i =>
      obtain ⟨pidx, hpidx, hpaddr, hpi⟩ := idxGet_some hig
      obtain ⟨e0, he0, he0a, he0c⟩ := hinv.sound idx hm pidx hpidx
      rw [hpi] at he0
      cases hi : m.items[i]? with
      | none =>
        rw [hi] at he0
        cases he0
      | some e =>
        rw [insert_idx_occupied hm hig hi]
        have h1 : Symbol.drop (r.bumpAt k.addr) k = r := clone_drop_id hinv.reg hkmem
        rw [h1]
        have hkeys : (m.items.set i (e.1, v)).map (fun x => x.1)
            = m.items.map (fun x => x.1) := by
          rw [List.map_set]
          exact set_self (by rw [List.getElem?_map, hi]; rfl)
        have hhold : (⟨m.items.set i (e.1, v), m.map⟩ : SymbolMap V).holders = m.holders := by
          rw [holders_def, holders_def]
          rw [hkeys]
          rfl
        exact insert_swap_inv v hi (by rw [hhold]; exact RegInv.drop hkcons)
          hinv.keysDistinct hinv.threshold hinv.sound hinv.complete
    | none =>
      rw [insert_idx_vacant hm hig]
      have hlen9 : ¬ (m.items.length ≤ SMALL_MAP_SIZE) := by
        intro hh
        have := hinv.threshold.mpr hh
        rw [hm] at this
        simp at this
      have hknotin : ∀ p ∈ m.items, p.1.addr ≠ k.addr := by
        intro p hp hpeq
        obtain ⟨j, hj⟩ := List.getElem?_of_mem hp
        have hcomp := hinv.complete idx hm j p hj
        rw [idxGet_congr_addr hpeq] at hcomp
        rw [hig] at hcomp
        cases hcomp
      have hidxm : m.idxSyms = idx.map (fun p => p.1) := by
        unfold SymbolMap.idxSyms
        rw [hm]
      have hreg' : RegInv (r.bumpAt k.addr)
          ((⟨m.items ++ [(k, v)], some (idx ++ [(k, m.items.length)])⟩ : SymbolMap V).holders
            ++ L0) := by
        have hc : RegInv (r.bumpAt k.addr) (k :: (m.holders ++ (k :: L0))) :=
          RegInv.clone hinv.reg hkmem
        apply hc.count_congr
        intro x
        simp only [holders_mk, idxSyms_mk_some, holders_def, hidxm, List.map_append,
          List.map_cons, List.map_nil, List.count_append, List.count_cons, List.count_nil]
        omega
      refine ⟨hreg', ?_, ?_, ?_, ?_⟩
      · rw [List.pairwise_append]
        refine ⟨hinv.keysDistinct, by simp, ?_⟩
        intro a ha b hb
        simp only [List.mem_singleton] at hb
        subst hb
        exact hknotin a ha
      · show (some (idx ++ [(k, m.items.length)])).isNone = true
          ↔ (m.items ++ [(k, v)]).length ≤ SMALL_MAP_SIZE
        simp only [Option.isNone_some, List.length_append, List.length_singleton]
        constructor
        · intro hh
          cases hh
        · intro hh
          omega
      · intro idx2 h2 p hp
        injection h2 with h2e
        subst h2e
        rcases List.mem_append.mp hp with hp1 | hp1
        · obtain ⟨e2, he2, h2a, h2c⟩ := hinv.sound idx hm p hp1
          have hlt : p.2 < m.items.length := (List.getElem?_eq_some.mp he2).1
          exact ⟨e2, by rw [List.getElem?_append_left hlt]; exact he2, h2a, h2c⟩
        · simp only [List.mem_singleton] at hp1
          subst hp1
          refine ⟨(k, v), ?_, rfl, rfl⟩
          rw [List.getElem?_append_right (le_refl _)]
          simp
      · intro idx2 h2 j e2 hj
        injection h2 with h2e
        subst h2e
        by_cases hjl : j < m.items.length
        · rw [List.getElem?_append_left hjl] at hj
          exact idxGet_append_some (hinv.complete idx hm j e2 hj)
        · have hjge : m.items.length ≤ j := by omega
          rw [List.getElem?_append_right hjge] at hj
          have hj0 : j - m.items.length = 0 ∧ e2 = (k, v) := by
            cases hsub : j - m.items.length with
            | zero =>
              rw [hsub] at hj
              simp at hj
              exact ⟨rfl, hj.symm⟩
            | succ n =>
              rw [hsub] at hj
              simp at hj
          obtain ⟨hj0, rfl⟩ := hj0
          have hjeq : j = m.items.length := by omega
          subst hjeq
          show idxGet (idx ++ [(k, m.items.length)]) k = some m.items.length
          rw [idxGet_append_none hig]
          rw [idxGet_cons_eq (by simp)]
  | none =>
    cases hfi : m.items.findIdx? (fun e => e.1.addr == k.addr) with
    | some i =>
      obtain ⟨e, hi, hpe⟩ := findIdx?_some_elem hfi
      rw [insert_scan_hit hm hfi hi]
      rw [← hm]
      have hkeys : (m.items.set i (e.1, v)).map (fun x => x.1)
          = m.items.map (fun x => x.1) := by
        rw [List.map_set]
        exact set_self (by rw [List.getElem?_map, hi]; rfl)
      have hhold : (⟨m.items.set i (e.1, v), m.map⟩ : SymbolMap V).holders = m.holders := by
        rw [holders_def, holders_def]
        rw [hkeys]
        rfl
      exact insert_swap_inv v hi (by rw [hhold]; exact RegInv.drop hkcons)
        hinv.keysDistinct hinv.threshold hinv.sound hinv.complete
    | none =>
      rw [insert_scan_miss hm hfi]
      have hknotin : ∀ p ∈ m.items, p.1.addr ≠ k.addr := by
        intro p hp
        have := List.findIdx?_eq_none_iff.mp hfi p hp
        simpa using this
      have hdist1 : (m.items ++ [(k, v)]).Pairwise (fun a b => a.1.addr ≠ b.1.addr) := by
        rw [List.pairwise_append]
        refine ⟨hinv.keysDistinct, by simp, ?_⟩
        intro a ha b hb
        simp only [List.mem_singleton] at hb
        subst hb
        exact hknotin a ha
      have hidxm : m.idxSyms = [] := by
        unfold SymbolMap.idxSyms
        rw [hm]
      have hreg1 : RegInv r ((⟨m.items ++ [(k, v)], none⟩ : SymbolMap V).holders ++ L0) := by
        apply hkcons.count_congr
        intro x
        simp only [holders_mk, idxSyms_mk_none, holders_def, hidxm, List.map_append,
          List.map_cons, List.map_nil, List.count_append, List.count_cons, List.count_nil]
        omega
      exact (rebuild_inv hreg1 hdist1).1

lemma insert_at_spec {V : Type} {r : Registry} {m : SymbolMap V} {k : Symbol}
    {L0 : List Symbol} (hinv : MapInv r m (k :: L0)) (i : Nat) (v : V) :
    ∀ res, SymbolMap.insert_at r m i k v = some res → MapInv res.2.2 res.2.1 L0 := by
  intro res hres
  obtain ⟨hrm, hcont⟩ := remove_spec hinv k.content
  unfold SymbolMap.insert_at at hres
  by_cases hle : i ≤ (SymbolMap.remove r m k.content).2.1.items.length
  · rw [if_pos hle] at hres
    injection hres with h2
    subst h2
    have hknotin : ∀ p ∈ (SymbolMap.remove r m k.content).2.1.items, p.1.addr ≠ k.addr := by
      intro p hp hpeq
      have hk1 : k ∈ (SymbolMap.remove r m k.content).2.1.holders ++ (k :: L0) :=
        List.mem_append_right _ (List.mem_cons_self _ _)
      have hp1 := mem_live_of_item hp (k :: L0)
      exact hcont p hp ((hrm.reg.content_iff_addr hp1 hk1).mpr hpeq)
    have hperm := List.perm_insertIdx (k, v) (SymbolMap.remove r m k.content).2.1.items hle
    have hdist1 : ((SymbolMap.remove r m k.content).2.1.items.insertIdx i (k, v)).Pairwise
        (fun a b => a.1.addr ≠ b.1.addr) := by
      refine (List.Perm.pairwise_iff (fun h => h.symm) hperm).mpr ?_
      rw [List.pairwise_cons]
      exact ⟨fun b hb hh => hknotin b hb hh.symm, hrm.keysDistinct⟩
    have hreg1 : RegInv (SymbolMap.remove r m k.content).2.2
        ((⟨(SymbolMap.remove r m k.content).2.1.items.insertIdx i (k, v),
           (SymbolMap.remove r m k.content).2.1.map⟩ : SymbolMap V).holders ++ L0) := by
      apply hrm.reg.count_congr
      intro x
      have hc := (hperm.map (fun e => e.1)).count_eq x
      simp only [List.map_cons, List.count_cons] at hc
      simp only [holders_mk, holders_def, List.count_append, List.count_cons]
      rw [show ((⟨(SymbolMap.remove r m k.content).2.1.items.insertIdx i (k, v),
           (SymbolMap.remove r m k.content).2.1.map⟩ : SymbolMap V)).idxSyms
          = (SymbolMap.remove r m k.content).2.1.idxSyms from rfl]
      omega
    exact (rebuild_inv hreg1 hdist1).1
  · rw [if_neg hle] at hres
    cases hres

/-! ### Every reachable combined state is well-formed -/

lemma MapWF.mstep_wf {V : Type} {st : MSt V} (hwf : MapWF st) (op : MOp V) :
    MapWF (st.step op) := by
  cases op with
  | insertOp s v => exact insert_spec (MapInv.intern hwf s) v
  | insertAtOp i s v =>
    cases hres : SymbolMap.insert_at (Symbol.new st.reg s).2 st.m i (Symbol.new st.reg s).1 v
      with
    | some res =>
      have hstep : st.step (MOp.insertAtOp i s v) = ⟨res.2.2, res.2.1⟩ := by
        simp only [MSt.step, hres]
      rw [MapWF, hstep]
      exact insert_at_spec (MapInv.intern hwf s) i v res hres
    | none =>
      have hstep : st.step (MOp.insertAtOp i s v) = st := by
        simp only [MSt.step, hres]
      rw [MapWF, hstep]
      exact hwf
  | removeOp q => exact (remove_spec hwf q).1
  | removeAtOp i =>
    cases hres : SymbolMap.remove_at st.reg st.m i with
    | some res =>
      have hstep : st.step (MOp.removeAtOp i) = ⟨res.2.2, res.2.1⟩ := by
        simp only [MSt.step, hres]
      rw [MapWF, hstep]
      exact remove_at_spec hwf i res hres
    | none =>
      have hstep : st.step (MOp.removeAtOp i) = st := by
        simp only [MSt.step, hres]
      rw [MapWF, hstep]
      exact hwf
  | popFrontOp =>
    obtain ⟨_, hsome, hnone⟩ := pop_front_spec hwf
    cases hp : (SymbolMap.pop_front st.reg st.m).1 with
    | some e =>
      have hstep : st.step MOp.popFrontOp
          = ⟨Symbol.drop (SymbolMap.pop_front st.reg st.m).2.2 e.1,
             (SymbolMap.pop_front st.reg st.m).2.1⟩ := by
        simp only [MSt.step, hp]
      rw [MapWF, hstep]
      exact ((hsome e hp).1).dropAmbient
    | none =>
      have hstep : st.step MOp.popFrontOp
          = ⟨(SymbolMap.pop_front st.reg st.m).2.2, (SymbolMap.pop_front st.reg st.m).2.1⟩ := by
        simp only [MSt.step, hp]
      rw [MapWF, hstep]
      obtain ⟨hm1, hr1⟩ := hnone hp
      rw [hm1, hr1]
      exact hwf
  | popBackOp =>
    have heq := pop_back_eq_pop_front st.reg st.m
    obtain ⟨_, hsome, hnone⟩ := pop_front_spec hwf
    cases hp : (SymbolMap.pop_back st.reg st.m).1 with
    | some e =>
      have hstep : st.step MOp.popBackOp
          = ⟨Symbol.drop (SymbolMap.pop_back st.reg st.m).2.2 e.1,
             (SymbolMap.pop_back st.reg st.m).2.1⟩ := by
        simp only [MSt.step, hp]
      rw [MapWF, hstep, heq]
      rw [heq] at hp
      exact ((hsome e hp).1).dropAmbient
    | none =>
      have hstep : st.step MOp.popBackOp
          = ⟨(SymbolMap.pop_back st.reg st.m).2.2, (SymbolMap.pop_back st.reg st.m).2.1⟩ := by
        simp only [MSt.step, hp]
      rw [MapWF, hstep, heq]
      rw [heq] at hp
      obtain ⟨hm1, hr1⟩ := hnone hp
      rw [hm1, hr1]
      exact hwf
  | clearOp => exact clear_spec hwf

lemma MapWF.mapply_wf {V : Type} {st : MSt V} (hwf : MapWF st) (ops : List (MOp V)) :
    MapWF (st.apply ops) := by
  induction ops generalizing st with
  | nil => exact hwf
  | cons op rest ih => exact ih (hwf.mstep_wf op)

lemma mapWF_new (V : Type) : MapWF ⟨Registry.init, SymbolMap.new V⟩ := by
  refine ⟨?_, ?_, ?_, ?_, ?_⟩
  · exact wf_init
  · exact List.Pairwise.nil
  · simp [SymbolMap.new, SMALL_MAP_SIZE]
  · intro idx h
    cases h
  · intro idx h
    cases h

lemma mapWF_with_capacity (V : Type) {c : Nat} (hc : c ≤ SMALL_MAP_SIZE) :
    MapWF ⟨Registry.init, SymbolMap.with_capacity V c⟩ := by
  have hcap : SymbolMap.with_capacity V c = SymbolMap.new V := by
    unfold SymbolMap.with_capacity SymbolMap.new
    rw [if_neg (by omega)]
  rw [MapWF, hcap]
  exact mapWF_new V

lemma rebuild_items {V : Type} (r : Registry) (mm : SymbolMap V) :
    (rebuild_map r mm).1.items = mm.items := by
  unfold rebuild_map
  split <;> rfl

lemma head?_dropLast_of_two {α : Type _} {l : List α} (h : 2 ≤ l.length) :
    l.dropLast.head? = l.head? := by
  cases l with
  | nil => simp at h
  | cons a t =>
    cases t with
    | nil => simp at h
    | cons b t2 => simp

/-! ## Claims C7 to C10: the ordered symbol map -/

/-- C7, amended.  For every map built by `new` or by `with_capacity` with
capacity at most the small-map threshold, and every sequence of map
operations, the secondary index is absent exactly while `items.len() <= 8`
(so present exactly above the threshold), and whenever present it is sound
and maps every stored key to that key's true current position. -/
theorem C7_index_threshold_and_sync {V : Type} (ops : List (MOp V)) (c : Nat)
    (hc : c ≤ SMALL_MAP_SIZE) :
    ((MSt.apply ⟨Registry.init, SymbolMap.new V⟩ ops).m.map.isNone
      ↔ (MSt.apply ⟨Registry.init, SymbolMap.new V⟩ ops).m.items.length ≤ SMALL_MAP_SIZE)
    ∧ (∀ idx, (MSt.apply ⟨Registry.init, SymbolMap.new V⟩ ops).m.map = some idx →
        IdxSound idx (MSt.apply ⟨Registry.init, SymbolMap.new V⟩ ops).m.items
        ∧ ∀ i e, (MSt.apply ⟨Registry.init, SymbolMap.new V⟩ ops).m.items[i]? = some e →
            idxGet idx e.1 = some i)
    ∧ ((MSt.apply ⟨Registry.init, SymbolMap.with_capacity V c⟩ ops).m.map.isNone
      ↔ (MSt.apply ⟨Registry.init, SymbolMap.with_capacity V c⟩ ops).m.items.length
          ≤ SMALL_MAP_SIZE)
    ∧ (∀ idx, (MSt.apply ⟨Registry.init, SymbolMap.with_capacity V c⟩ ops).m.map = some idx →
        IdxSound idx (MSt.apply ⟨Registry.init, SymbolMap.with_capacity V c⟩ ops).m.items
        ∧ ∀ i e, (MSt.apply ⟨Registry.init, SymbolMap.with_capacity V c⟩ ops).m.items[i]?
            = some e → idxGet idx e.1 = some i) := by
  have h1 := (mapWF_new V).mapply_wf ops
  have h2 := (mapWF_with_capacity V hc).mapply_wf ops
  exact ⟨h1.threshold, fun idx h => ⟨h1.sound idx h, h1.complete idx h⟩,
    h2.threshold, fun idx h => ⟨h2.sound idx h, h2.complete idx h⟩⟩

/-- Counterexample to C7 as stated: `with_capacity(9)` is a public
constructor, yet it produces a map whose secondary index is present while
`items.len() = 0 <= 8`. -/
theorem C7_counterexample :
    (SymbolMap.with_capacity Nat 9).items.length ≤ SMALL_MAP_SIZE
    ∧ ¬ (SymbolMap.with_capacity Nat 9).map.isNone := by
  constructor
  · decide
  · decide

/-- Witness for C7 (amended) at a one-insert operation sequence. -/
theorem C7_index_threshold_and_sync_witness :
    ((MSt.apply ⟨Registry.init, SymbolMap.new Nat⟩ [MOp.insertOp "w" 0]).m.map.isNone
      ↔ (MSt.apply ⟨Registry.init, SymbolMap.new Nat⟩ [MOp.insertOp "w" 0]).m.items.length
          ≤ SMALL_MAP_SIZE)
    ∧ (∀ idx, (MSt.apply ⟨Registry.init, SymbolMap.new Nat⟩ [MOp.insertOp "w" 0]).m.map
          = some idx →
        IdxSound idx (MSt.apply ⟨Registry.init, SymbolMap.new Nat⟩ [MOp.insertOp "w" 0]).m.items
        ∧ ∀ i e, (MSt.apply ⟨Registry.init, SymbolMap.new Nat⟩
            [MOp.insertOp "w" 0]).m.items[i]? = some e → idxGet idx e.1 = some i)
    ∧ ((MSt.apply ⟨Registry.init, SymbolMap.with_capacity Nat 3⟩ [MOp.insertOp "w" 0]).m.map.isNone
      ↔ (MSt.apply ⟨Registry.init, SymbolMap.with_capacity Nat 3⟩
          [MOp.insertOp "w" 0]).m.items.length ≤ SMALL_MAP_SIZE)
    ∧ (∀ idx, (MSt.apply ⟨Registry.init, SymbolMap.with_capacity Nat 3⟩
          [MOp.insertOp "w" 0]).m.map = some idx →
        IdxSound idx (MSt.apply ⟨Registry.init, SymbolMap.with_capacity Nat 3⟩
          [MOp.insertOp "w" 0]).m.items
        ∧ ∀ i e, (MSt.apply ⟨Registry.init, SymbolMap.with_capacity Nat 3⟩
            [MOp.insertOp "w" 0]).m.items[i]? = some e → idxGet idx e.1 = some i) :=
  C7_index_threshold_and_sync [MOp.insertOp "w" 0] 3 (by decide)

/-- Under the map invariant, a key that resolves to a canonical handle but
is held by no item of the map misses both lookup paths: no item key shares
the handle's address, and when the index is present neither its
address-keyed lookup nor its borrowed-content lookup hits. -/
lemma absent_key_miss {V : Type} {r : Registry} {m : SymbolMap V} {L0 : List Symbol}
    (hinv : MapInv r m L0) {q : String} {s : Symbol}
    (hg : (Symbol.get r q).1 = some s)
    (habs : ∀ p ∈ m.items, p.1.content ≠ q) :
    (∀ e ∈ m.items, e.1.addr ≠ s.addr)
    ∧ (∀ idx, m.map = some idx → idxGet idx s = none ∧ idxContainsStr idx q = false) := by
  obtain ⟨hreg1, hsc⟩ := RegInv.get_some hinv.reg hg
  have haddr : ∀ e : Symbol × V, e ∈ m.items → e.1.addr ≠ s.addr := by
    intro e he hea
    have hes : e.1 ∈ s :: (m.holders ++ L0) :=
      List.mem_cons_of_mem _ (mem_live_of_item he L0)
    have hc : e.1.content = s.content :=
      (hreg1.content_iff_addr hes (List.mem_cons_self _ _)).mpr hea
    exact habs e he (hc.trans hsc)
  refine ⟨haddr, ?_⟩
  intro idx hm
  constructor
  · apply idxGet_none_iff.mpr
    intro p hp hpa
    obtain ⟨e, he, hea, _⟩ := hinv.sound idx hm p hp
    exact haddr e (mem_of_getElem? he) (hea.trans hpa)
  · unfold idxContainsStr
    apply List.any_eq_false.mpr
    intro p hp
    simp only [beq_iff_eq]
    intro hpc
    obtain ⟨e, he, _, hec⟩ := hinv.sound idx hm p hp
    exact habs e (mem_of_getElem? he) (hec.trans hpc)

/-- C8, amended.  `remove`/`get`/`contains_key` on a key absent from the
map — whether or not the string is interned elsewhere — yield an empty
result and are a no-op on the map and the registry; the positional
operations return normally exactly when the index is within bounds
(`index < len` for `remove_at`; for `insert_at`, `index` at most the length
after the implicit removal).  Out of bounds, the positional operations do
not return normally (`Vec::remove`/`Vec::insert` panic, modeled `none`). -/
theorem C8_no_failure_in_bounds {V : Type} (r : Registry) (m : SymbolMap V) (i : Nat)
    (k : Symbol) (v : V) (q : String) (L0 : List Symbol) :
    ((SymbolMap.remove_at r m i).isSome ↔ i < m.items.length)
    ∧ ((SymbolMap.insert_at r m i k v).isSome
        ↔ i ≤ (SymbolMap.remove r m k.content).2.1.items.length)
    ∧ (MapInv r m L0 → (∀ p ∈ m.items, p.1.content ≠ q) →
        SymbolMap.remove r m q = (none, m, r)
        ∧ SymbolMap.get r m q = (none, r)
        ∧ SymbolMap.contains_key r m q = (false, r)) := by
  refine ⟨?_, ?_, ?_⟩
  · constructor
    · intro hs
      by_contra hlt
      push_neg at hlt
      rw [remove_at_none (List.getElem?_eq_none hlt)] at hs
      simp at hs
    · intro hlt
      have he : m.items[i]? = some m.items[i] := List.getElem?_eq_getElem hlt
      rw [remove_at_some he]
      rfl
  · unfold SymbolMap.insert_at
    by_cases hle : i ≤ (SymbolMap.remove r m k.content).2.1.items.length
    · rw [if_pos hle]
      simp [hle]
    · rw [if_neg hle]
      simp [hle]
  · intro hinv habs
    cases hg : (Symbol.get r q).1 with
    | none =>
      obtain ⟨_, hfq⟩ := RegInv.get_none hinv.reg hg
      have hgf : Symbol.get r q = (none, r) := get_not_found hfq
      refine ⟨?_, ?_, ?_⟩
      · unfold SymbolMap.remove
        rw [hgf]
      · unfold SymbolMap.get
        rw [hgf]
      · unfold SymbolMap.contains_key
        rw [hgf]
    | some s =>
      have hdropid := get_drop_id hinv.reg hg
      obtain ⟨haddr, hidx⟩ := absent_key_miss hinv hg habs
      cases hm : m.map with
      | some idx =>
        obtain ⟨hig, hics⟩ := hidx idx hm
        refine ⟨?_, ?_, ?_⟩
        · unfold SymbolMap.remove
          rw [hg]
          simp only [hm, hig]
          rw [hdropid]
        · unfold SymbolMap.get
          rw [hg]
          simp only [hm, hig]
          rw [hdropid]
        · unfold SymbolMap.contains_key
          rw [hg]
          simp only [hm, hics]
          rw [hdropid]
      | none =>
        have hfi : m.items.findIdx? (fun e => s.addr == e.1.addr) = none := by
          cases hfi0 : m.items.findIdx? (fun e => s.addr == e.1.addr) with
          | none => rfl
          | some j =>
            obtain ⟨e, he, hpe⟩ := findIdx?_some_elem hfi0
            simp only [beq_iff_eq] at hpe
            exact absurd hpe.symm (haddr e (mem_of_getElem? he))
        have hfind : m.items.find? (fun e => e.1.addr == s.addr) = none := by
          apply List.find?_eq_none.mpr
          intro e he
          simp only [beq_iff_eq]
          exact haddr e he
        have hany : m.items.any (fun e => e.1.addr == s.addr) = false := by
          apply List.any_eq_false.mpr
          intro e he
          simp only [beq_iff_eq]
          exact haddr e he
        refine ⟨?_, ?_, ?_⟩
        · unfold SymbolMap.remove
          rw [hg]
          simp only [hm, hfi]
          rw [hdropid]
        · unfold SymbolMap.get
          rw [hg]
          simp only [hm, hfind, Option.map_none']
          rw [hdropid]
        · unfold SymbolMap.contains_key
          rw [hg]
          simp only [hm, hany]
          rw [hdropid]

/-- Counterexample to C8 as stated: `remove_at(0)` on the empty map does
not return normally — `Vec::remove` panics out of bounds. -/
theorem C8_counterexample :
    SymbolMap.remove_at Registry.init (SymbolMap.new String) 0 = none := rfl

/-- A concrete state for the C8 witness: the registry interns `""`, `"x"`
and `"zz"`; the map holds only the `"x"` pair; the `"zz"` handle is held by
the ambient caller, so `"zz"` is interned yet absent from the map. -/
def c8reg : Registry := ⟨[⟨0, "", 2⟩, ⟨1, "x", 1⟩, ⟨2, "zz", 1⟩], 3⟩

def c8map : SymbolMap String := ⟨[(⟨1, "x"⟩, "v1")], none⟩

def c8amb : List Symbol := [⟨2, "zz"⟩]

/-- Witness for C8 (amended): positional bounds on the one-entry map, and
the interned-but-absent key `"zz"` leaving map and registry untouched. -/
theorem C8_no_failure_in_bounds_witness :
    ((SymbolMap.remove_at c8reg c8map 0).isSome ↔ 0 < c8map.items.length)
    ∧ ((SymbolMap.insert_at c8reg c8map 0 ⟨1, "x"⟩ "v2").isSome
        ↔ 0 ≤ (SymbolMap.remove c8reg c8map (Symbol.mk 1 "x").content).2.1.items.length)
    ∧ (SymbolMap.remove c8reg c8map "zz" = (none, c8map, c8reg)
      ∧ SymbolMap.get c8reg c8map "zz" = (none, c8reg)
      ∧ SymbolMap.contains_key c8reg c8map "zz" = (false, c8reg)) :=
  ⟨(C8_no_failure_in_bounds c8reg c8map 0 ⟨1, "x"⟩ "v2" "zz" c8amb).1,
   (C8_no_failure_in_bounds c8reg c8map 0 ⟨1, "x"⟩ "v2" "zz" c8amb).2.1,
   (C8_no_failure_in_bounds c8reg c8map 0 ⟨1, "x"⟩ "v2" "zz" c8amb).2.2
     ⟨⟨by decide, by decide, by decide, by decide, by decide, by decide, by decide⟩,
      by decide, by decide, (fun idx h => nomatch h), (fun idx h => nomatch h)⟩
     (by decide)⟩

/-- The smoke-test scenario of `map.rs`, step by step: intern and insert
`"key1" → "v1"`, then `"key2" → "v2"`, then `"key1" → "v3"` again. -/
def scenarioK1 : Symbol × Registry := Symbol.new Registry.init "key1"

def scenarioS1 : Option String × SymbolMap String × Registry :=
  SymbolMap.insert scenarioK1.2 (SymbolMap.new String) scenarioK1.1 "v1"

def scenarioK2 : Symbol × Registry := Symbol.new scenarioS1.2.2 "key2"

def scenarioS2 : Option String × SymbolMap String × Registry :=
  SymbolMap.insert scenarioK2.2 scenarioS1.2.1 scenarioK2.1 "v2"

def scenarioK3 : Symbol × Registry := Symbol.new scenarioS2.2.2 "key1"

def scenarioS3 : Option String × SymbolMap String × Registry :=
  SymbolMap.insert scenarioK3.2 scenarioS2.2.1 scenarioK3.1 "v3"

/-- C9.  The smoke-test scenario: inserting `"key1" → "v1"`, `"key2" → "v2"`
and then `"key1" → "v3"` leaves a map of length 2 where `get "key1"`
returns `"v3"` (the second insert on `"key1"` returned the replaced
`"v1"`), `get "key4"` returns absence, neither lookup changes the
registry, and the registry holds exactly the three distinct symbols
`"key2"`, `"key1"` and the permanent empty symbol. -/
theorem C9_smoke_scenario :
    scenarioS1.1 = none ∧ scenarioS2.1 = none ∧ scenarioS3.1 = some "v1"
    ∧ SymbolMap.len scenarioS3.2.1 = 2
    ∧ (SymbolMap.get scenarioS3.2.2 scenarioS3.2.1 "key1").1 = some "v3"
    ∧ (SymbolMap.get scenarioS3.2.2 scenarioS3.2.1 "key1").2 = scenarioS3.2.2
    ∧ (SymbolMap.get scenarioS3.2.2 scenarioS3.2.1 "key4").1 = none
    ∧ (SymbolMap.get scenarioS3.2.2 scenarioS3.2.1 "key4").2 = scenarioS3.2.2
    ∧ scenarioS3.2.2.entries.length = 3
    ∧ scenarioS3.2.2.entries.map (fun e => e.content) = ["key2", "key1", ""] := by
  decide

/-- C10, amended.  `pop_front` is observationally identical to `pop_back`:
both remove and return the LAST (most recently appended) pair, leave an
empty map unchanged returning absence, and never remove the first pair
unless the map holds a single pair (where first and last coincide). -/
theorem C10_pop_front_pops_last (V : Type) (r : Registry) (m : SymbolMap V) :
    SymbolMap.pop_front r m = SymbolMap.pop_back r m
    ∧ (SymbolMap.pop_front r m).1 = m.items.getLast?
    ∧ (m.items = [] → SymbolMap.pop_front r m = (none, m, r))
    ∧ ((SymbolMap.pop_front r m).1.isSome →
        (SymbolMap.pop_front r m).2.1.items = m.items.dropLast)
    ∧ (2 ≤ m.items.length →
        (SymbolMap.pop_front r m).2.1.items.head? = m.items.head?) := by
  refine ⟨(pop_back_eq_pop_front r m).symm, ?_⟩
  cases hl : m.items.getLast? with
  | none =>
    rw [pop_front_none hl]
    have hnil : m.items = [] := by simpa using hl
    refine ⟨rfl, fun _ => rfl, ?_, fun _ => rfl⟩
    intro hh
    cases hh
  | some e =>
    rw [pop_front_some hl]
    refine ⟨rfl, ?_, ?_, ?_⟩
    · intro hh
      rw [hh] at hl
      cases hl
    · intro _
      exact rebuild_items r ⟨m.items.dropLast, m.map⟩
    · intro h2
      rw [rebuild_items r ⟨m.items.dropLast, m.map⟩]
      exact head?_dropLast_of_two h2

/-- Counterexample to C10 as stated: on a one-pair map `pop_front` removes
the pair — which is the first pair of the sequence. -/
theorem C10_counterexample :
    ((⟨[(⟨5, "a"⟩, 1)], none⟩ : SymbolMap Nat)).items.head? = some (⟨5, "a"⟩, 1)
    ∧ (SymbolMap.pop_front Registry.init
        (⟨[(⟨5, "a"⟩, 1)], none⟩ : SymbolMap Nat)).1 = some (⟨5, "a"⟩, 1)
    ∧ (SymbolMap.pop_front Registry.init
        (⟨[(⟨5, "a"⟩, 1)], none⟩ : SymbolMap Nat)).2.1.items = [] := by
  refine ⟨rfl, rfl, rfl⟩

/-- Witness for C10 (amended) on a concrete two-pair map. -/
theorem C10_pop_front_pops_last_witness :
    SymbolMap.pop_front Registry.init
        (⟨[(⟨5, "a"⟩, 1), (⟨6, "b"⟩, 2)], none⟩ : SymbolMap Nat)
      = SymbolMap.pop_back Registry.init ⟨[(⟨5, "a"⟩, 1), (⟨6, "b"⟩, 2)], none⟩
    ∧ (SymbolMap.pop_front Registry.init
        (⟨[(⟨5, "a"⟩, 1), (⟨6, "b"⟩, 2)], none⟩ : SymbolMap Nat)).2.1.items.head?
      = (⟨[(⟨5, "a"⟩, 1), (⟨6, "b"⟩, 2)], none⟩ : SymbolMap Nat).items.head? :=
  ⟨(C10_pop_front_pops_last Nat Registry.init ⟨[(⟨5, "a"⟩, 1), (⟨6, "b"⟩, 2)], none⟩).1,
   (C10_pop_front_pops_last Nat Registry.init
     ⟨[(⟨5, "a"⟩, 1), (⟨6, "b"⟩, 2)], none⟩).2.2.2.2 (by decide)⟩

end KgSymbol
